import Mathlib

set_option maxHeartbeats 1000000
set_option maxRecDepth 4000

/-!
Verification of the MightyDNS request-routing core.

This file gives a shallow Lean embedding of the parts of the MightyDNS
source that the specification's claims are about:

* the client classifier (`module/client/classifier.go`),
* the forward zone and zone manager (`module/dns/zone/`),
* the upstream resolver (`module/dns/resolver/upstream.go`),
* the policy handler and its selective-override algorithm (`module/policy/`),
* the top-level configuration loader (`config.go`).

Go maps are modelled as association lists; wherever Go iterates a map in
unspecified order, the model takes the iteration order as an explicit list
parameter so that theorems quantify over every order the Go runtime may
produce.  IP addresses are modelled as 32-bit naturals (the claims only
exercise IPv4 literals; IPv6 literal parsing is outside the claims'
inputs and is modelled as a parse failure).  External network I/O
(`dns.Client.ExchangeContext`) is modelled by an oracle mapping a target
address to the outcome of the exchange.
-/

/-! ### ASCII string helpers (model of the `strings` package fragment used) -/

/-- ASCII lower-casing of one character, the fragment of `strings.ToLower`
exercised by DNS names. -/
def asciiLower (c : Char) : Char :=
  if 'A' ≤ c ∧ c ≤ 'Z' then Char.ofNat (c.toNat + 32) else c

/-- ASCII upper-casing of one character (`strings.ToUpper` fragment). -/
def asciiUpper (c : Char) : Char :=
  if 'a' ≤ c ∧ c ≤ 'z' then Char.ofNat (c.toNat - 32) else c

/-- Model of `strings.ToLower` on ASCII data. -/
def lowerStr (s : String) : String := String.mk (s.data.map asciiLower)

/-- Model of `strings.ToUpper` on ASCII data. -/
def upperStr (s : String) : String := String.mk (s.data.map asciiUpper)

/-- Split a character list at every occurrence of `sep`
(model of `strings.Split`). -/
def splitChar (sep : Char) : List Char → List (List Char)
  | [] => [[]]
  | c :: cs =>
    let rest := splitChar sep cs
    if c = sep then [] :: rest
    else
      match rest with
      | [] => [[c]]
      | g :: gs => (c :: g) :: gs

/-! ### IPv4 addresses and CIDR networks

`net.IP` values are modelled as 32-bit naturals.  `net.ParseIP` is
modelled for dotted-quad IPv4 literals (each field a decimal 0–255 with
no leading zeros, as in Go ≥ 1.17); none of the claims' inputs are IPv6
literals. -/

/-- Parse one dotted-quad field: nonempty decimal digits, value ≤ 255,
no leading zeros. -/
def parseByteField (cs : List Char) : Option Nat :=
  if cs.isEmpty then none
  else if 1 < cs.length ∧ cs.headD ' ' = '0' then none
  else if cs.all Char.isDigit then
    let n := cs.foldl (fun a c => a * 10 + (c.toNat - 48)) 0
    if n ≤ 255 then some n else none
  else none

/-- Model of `net.ParseIP` restricted to dotted-quad IPv4 literals. -/
def goParseIP (s : String) : Option Nat :=
  match (splitChar '.' s.data).mapM parseByteField with
  | some [a, b, c, d] => some (((a * 256 + b) * 256 + c) * 256 + d)
  | _ => none

/-- A compiled CIDR network: the masked base address and the mask length
(model of `net.IPNet` for IPv4). -/
structure CIDRNet where
  base : Nat
  maskLen : Nat
deriving DecidableEq, Repr

/-- Keep the top `len` bits of a 32-bit address. -/
def maskBits (len ip : Nat) : Nat := ip / 2 ^ (32 - len) * 2 ^ (32 - len)

/-- Parse the mask length of a CIDR: nonempty decimal ≤ 32. -/
def parseMaskLen (cs : List Char) : Option Nat :=
  if cs.isEmpty then none
  else if cs.all Char.isDigit then
    let n := cs.foldl (fun a c => a * 10 + (c.toNat - 48)) 0
    if n ≤ 32 then some n else none
  else none

/-- Model of `net.ParseCIDR` for IPv4: split at the first `/`, parse the
address and the mask length, and mask the base address. -/
def goParseCIDR (s : String) : Option CIDRNet :=
  match splitChar '/' s.data with
  | [ipPart, lenPart] =>
    match goParseIP (String.mk ipPart), parseMaskLen lenPart with
    | some ip, some len => some ⟨maskBits len ip, len⟩
    | _, _ => none
  | _ => none

/-- Model of `(*net.IPNet).Contains` for IPv4. -/
def cidrContains (n : CIDRNet) (ip : Nat) : Bool :=
  maskBits n.maskLen ip = n.base

/-! ### Client classifier (`module/client/classifier.go`) -/

/-- `client.ClientGroup`: the JSON-configured sources and priority. -/
structure ClientGroup where
  sources : List String
  priority : Int
deriving DecidableEq, Repr

/-- `client.compiledClientGroup`: parsed exact IPs and CIDR networks. -/
structure CompiledGroup where
  name : String
  priority : Int
  networks : List CIDRNet
  ips : List Nat
deriving DecidableEq, Repr

/-- Outcome of `ClientClassifier.parseSource` for one source string. -/
inductive SourceParsed where
  | cidr (n : CIDRNet)
  | ip (a : Nat)
deriving DecidableEq, Repr

/-- `ClientClassifier.parseSource`: a source containing `/` is parsed as a
CIDR block, otherwise as an individual IP address; `none` is the error
return. -/
def parseSource (source : String) : Option SourceParsed :=
  if source.data.contains '/' then (goParseCIDR source).map .cidr
  else (goParseIP source).map .ip

/-- The error paths of `ClientClassifier.Provision`. -/
inductive ProvisionErr where
  | noGroups
  | invalidSourceErr (group source : String)
deriving DecidableEq, Repr

/-- The source-parsing loop inside `Provision`: parse every source of a
group in order, partitioning into CIDR networks and exact IPs; stop at the
first unparsable source. -/
def compileSources (gname : String) : List String → Except ProvisionErr (List CIDRNet × List Nat)
  | [] => .ok ([], [])
  | s :: rest =>
    match parseSource s with
    | none => .error (.invalidSourceErr gname s)
    | some p =>
      match compileSources gname rest with
      | .error e => .error e
      | .ok (ns, as) =>
        match p with
        | .cidr n => .ok (n :: ns, as)
        | .ip a => .ok (ns, a :: as)

/-- The group-compilation loop inside `Provision`: compile each group in
map-iteration order, stopping at the first parse error. -/
def compileGroups : List (String × ClientGroup) → Except ProvisionErr (List CompiledGroup)
  | [] => .ok []
  | (n, g) :: rest =>
    match compileSources n g.sources with
    | .error e => .error e
    | .ok (ns, as) =>
      match compileGroups rest with
      | .error e => .error e
      | .ok cs => .ok (⟨n, g.priority, ns, as⟩ :: cs)

/-- `ClientClassifier.Provision`.  The `groups` list is the iteration
order of the Go `Groups` map.  Note the Go code checks only that the map
is nonempty and that every source parses: there is no check for a group
with an empty source list nor for a negative priority. -/
def provisionClassifier (groups : List (String × ClientGroup)) :
    Except ProvisionErr (List CompiledGroup) :=
  if groups.isEmpty then .error .noGroups
  else compileGroups groups

/-- Does a compiled group match an IP?  The Go loop tests exact IPs first
and then CIDR membership; the disjunction has the same value. -/
def groupMatchesIP (g : CompiledGroup) (ip : Nat) : Bool :=
  g.ips.any (fun x => ip = x) || g.networks.any (fun n => cidrContains n ip)

/-- Insertion step of the ascending-priority sort performed by
`sort.Slice` in `ClassifyIP`. -/
def insertByPriority (g : CompiledGroup) : List CompiledGroup → List CompiledGroup
  | [] => [g]
  | h :: t => if g.priority < h.priority then g :: h :: t else h :: insertByPriority g t

/-- Ascending-priority sort of the compiled groups.  The input list is
the (arbitrary) iteration order of the Go `compiled` map; `sort.Slice` is
not stable, but every order it can produce is ascending in priority, which
is the only property the theorems use. -/
def sortByPriority (l : List CompiledGroup) : List CompiledGroup :=
  l.foldr insertByPriority []

/-- `ClientClassifier.ClassifyIP`: `nil` IP classifies to the empty name;
otherwise groups are scanned in ascending priority order and the first
matching group's name is returned, or the empty name if none matches. -/
def classifyIP (compiled : List CompiledGroup) (clientIP : Option Nat) : String :=
  match clientIP with
  | none => ""
  | some ip =>
    match (sortByPriority compiled).find? (fun g => groupMatchesIP g ip) with
    | some g => g.name
    | none => ""

/-! ### Remote addresses (`ClientClassifier.ExtractClientIP`) -/

/-- Model of `net.Addr` as seen by `ExtractClientIP`: a UDP endpoint, a
TCP endpoint (whose `IP` field may be nil), or any other address exposed
only through its string form. -/
inductive RemoteAddr where
  | udp (ip : Option Nat)
  | tcp (ip : Option Nat)
  | other (s : String)
deriving DecidableEq, Repr

/-- Model of `net.SplitHostPort`: the host is everything before the last
colon and the port everything after it; an address with no colon, or with
a colon inside an unbracketed host, is an error.  Bracketed IPv6 hosts
have their brackets stripped. -/
def splitHostPort (s : String) : Option (String × String) :=
  let cs := s.data
  if cs.contains ':' then
    let i := (cs.length - 1) - ((cs.reverse.indexOf ':'))
    let host := cs.take i
    let port := cs.drop (i + 1)
    match host with
    | '[' :: h =>
      if h.getLast? = some ']' then some (String.mk (h.dropLast), String.mk port)
      else none
    | _ =>
      if host.contains ':' then none
      else some (String.mk host, String.mk port)
  else none

/-- `ClientClassifier.ExtractClientIP`: UDP and TCP endpoints expose their
IP directly; for any other address the string form is split as host:port
and the host parsed as an IP, returning `nil` (`none`) on any failure. -/
def extractClientIP (addr : RemoteAddr) : Option Nat :=
  match addr with
  | .udp ip => ip
  | .tcp ip => ip
  | .other s =>
    match splitHostPort s with
    | none => none
    | some (host, _) => goParseIP host

/-- `ClientClassifier.ClassifyDNSRequest`: extract the client IP and
classify it. -/
def classifyDNSRequest (compiled : List CompiledGroup) (addr : RemoteAddr) : String :=
  classifyIP compiled (extractClientIP addr)

/-! ### DNS messages (fragment of the `miekg/dns` message model the core uses) -/

/-- Question types distinguished by the zone code. -/
inductive QType where
  | qA
  | qAAAA
  | qCNAME
  | qTXT
  | qANY
  | qOther (code : Nat)
deriving DecidableEq, Repr

/-- A resource record of a synthesized or forwarded answer. -/
structure RR where
  rname : String
  rtype : String
  ttl : Nat
  rdata : String
deriving DecidableEq, Repr

/-- One question of a DNS message. -/
structure Question where
  qname : String
  qtype : QType
deriving DecidableEq, Repr

/-- A DNS message: the fields of `dns.Msg` the routing core reads or
writes. -/
structure Msg where
  id : Nat
  rcode : Nat
  response : Bool
  question : List Question
  answer : List RR
deriving DecidableEq, Repr

def rcodeSuccess : Nat := 0
def rcodeFormErr : Nat := 1
def rcodeServFail : Nat := 2
def rcodeNXDomain : Nat := 3

/-- Model of `(*dns.Msg).SetReply`: a fresh reply carrying the request's
id and question. -/
def setReply (r : Msg) : Msg :=
  { id := r.id, rcode := rcodeSuccess, response := true,
    question := r.question, answer := [] }

/-- Model of `(*dns.Msg).SetRcode(r, rc)`: a reply to `r` with the given
rcode. -/
def setRcode (r : Msg) (rc : Nat) : Msg :=
  { setReply r with rcode := rc }

/-! ### Association-list helpers (Go `map[string]T` access) -/

/-- Go map read `m[k]`. -/
def assocGet {α : Type} (fs : List (String × α)) (k : String) : Option α :=
  (fs.find? (fun p => p.1 == k)).map (·.2)

/-- Go map write `m[k] = v`: replace the binding if the key is present,
otherwise add it. -/
def assocSet {α : Type} : List (String × α) → String → α → List (String × α)
  | [], k, v => [(k, v)]
  | (k', v') :: rest, k, v =>
    if k' == k then (k, v) :: rest else (k', v') :: assocSet rest k v

/-! ### Zone utilities (`module/dns/zone/zone.go`) -/

/-- `normalizeQName`: lower-case and guarantee a trailing dot. -/
def normalizeQName (qname : String) : String :=
  let l := lowerStr qname
  if l.data.getLast? = some '.' then l else l ++ "."

/-- `isSubdomain`: after normalization, `qname` equals the zone or ends
with `"." ++ zone`. -/
def isSubdomain (qname zone : String) : Bool :=
  let q := normalizeQName qname
  let z := normalizeQName zone
  q == z || decide (('.' :: z.data).IsSuffix q.data)

/-- `zone.DNSRecord`. -/
structure DNSRecord where
  rtype : String
  value : String
  ttl : Nat
deriving DecidableEq, Repr

/-- `zone.UpstreamConfig`. -/
structure UpstreamConfig where
  upstreams : List String
  timeout : String
  protocol : String
deriving DecidableEq, Repr

/-- `createDNSResponse`: synthesize a reply for a local record.  The TTL
defaults to 300 when the record's ttl is 0; A (and, in this IPv4 model,
AAAA) values must parse as IPs, otherwise the reply is SERVFAIL; unknown
record types are SERVFAIL. -/
def createDNSResponse (r : Msg) (record : DNSRecord) (qname : String) : Msg :=
  let m := setReply r
  let ttl := if record.ttl = 0 then 300 else record.ttl
  let t := upperStr record.rtype
  if t == "A" then
    match goParseIP record.value with
    | none => setRcode r rcodeServFail
    | some _ => { m with answer := [⟨qname, "A", ttl, record.value⟩] }
  else if t == "AAAA" then
    match goParseIP record.value with
    | none => setRcode r rcodeServFail
    | some _ => { m with answer := [⟨qname, "AAAA", ttl, record.value⟩] }
  else if t == "CNAME" then
    { m with answer := [⟨qname, "CNAME", ttl, normalizeQName record.value⟩] }
  else if t == "TXT" then
    { m with answer := [⟨qname, "TXT", ttl, record.value⟩] }
  else setRcode r rcodeServFail

/-! ### Forward zone (`module/dns/zone/forward.go`)

The network is modelled by an oracle mapping an upstream target address
to the outcome of the one exchange `dns.Client.ExchangeContext` performs
against it. -/

/-- Outcome of one upstream exchange: a transport error, a nil response,
or a response message. -/
inductive ExchangeOutcome where
  | exErr
  | exNil
  | exResp (m : Msg)
deriving DecidableEq, Repr

/-- Did the exchange produce a (non-nil) response? -/
def isRespOutcome : ExchangeOutcome → Bool
  | .exResp _ => true
  | _ => false

/-- `zone.ForwardZone`: normalized zone name, normalized record map, and
the optional zone-scoped upstream. -/
structure ForwardZone where
  zoneName : String
  records : List (String × DNSRecord)
  upstreamConfig : Option UpstreamConfig
deriving DecidableEq, Repr

/-- `NewForwardZone`: normalize the zone name and every record key (the
records list is the iteration order of the Go map argument). -/
def newForwardZone (zoneName : String) (records : List (String × DNSRecord))
    (upstream : Option UpstreamConfig) : ForwardZone :=
  { zoneName := normalizeQName zoneName,
    records := records.foldl (fun acc p => assocSet acc (normalizeQName p.1) p.2) [],
    upstreamConfig := upstream }

/-- `ForwardZone.Match`. -/
def fzMatch (fz : ForwardZone) (qname : String) : Bool :=
  isSubdomain qname fz.zoneName

/-- `ForwardZone.matchesQType`: ANY accepts every record type, the four
concrete types require literal equality of the record's type string. -/
def matchesQType (record : DNSRecord) (qtype : QType) : Bool :=
  match qtype with
  | .qA => record.rtype == "A"
  | .qAAAA => record.rtype == "AAAA"
  | .qCNAME => record.rtype == "CNAME"
  | .qTXT => record.rtype == "TXT"
  | .qANY => true
  | .qOther _ => false

/-- Result of `ForwardZone.Resolve`: the Go `(bool, error)` pair together
with the message written to the response writer (the mock writer records
the message and never fails). -/
inductive ResolveOut where
  | rerr
  | unhandled
  | handledWith (m : Msg)
deriving DecidableEq, Repr

/-- The target loop shared by `ForwardZone.forwardToUpstream` and
`ZoneManager.forwardToDefaultUpstream`: targets are tried in order,
targets with an invalid host:port form and targets whose exchange errors
or returns nil are skipped, and the first response is returned with its
transaction id overwritten by the query's. -/
def forwardLoop (targets : List String) (oracle : String → ExchangeOutcome) (r : Msg) :
    Option Msg :=
  match targets with
  | [] => none
  | t :: rest =>
    if (splitHostPort t).isSome then
      match oracle t with
      | .exResp m => some { m with id := r.id }
      | _ => forwardLoop rest oracle r
    else forwardLoop rest oracle r

/-- `ForwardZone.forwardToUpstream`: nothing to do without a configured,
nonempty upstream; otherwise run the target loop and report `handled`
only when some target responded — when every target fails the zone
reports `(false, nil)`. -/
def forwardToUpstream (fz : ForwardZone) (oracle : String → ExchangeOutcome) (r : Msg) :
    ResolveOut :=
  match fz.upstreamConfig with
  | none => .unhandled
  | some cfg =>
    if cfg.upstreams.isEmpty then .unhandled
    else
      match forwardLoop cfg.upstreams oracle r with
      | some m => .handledWith m
      | none => .unhandled

/-- `ForwardZone.Resolve`. -/
def fzResolve (fz : ForwardZone) (oracle : String → ExchangeOutcome) (r : Msg)
    (clientGroup : String) : ResolveOut :=
  match r.question with
  | [] => .rerr
  | q :: _ =>
    let qname := normalizeQName q.qname
    if fzMatch fz qname then
      match assocGet fz.records qname with
      | some record =>
        if matchesQType record q.qtype then .handledWith (createDNSResponse r record qname)
        else forwardToUpstream fz oracle r
      | none => forwardToUpstream fz oracle r
    else .unhandled

/-! ### Zone manager (`module/dns/zone/manager.go`)

The `baseZones` field in Go is a `map[string]Zone`; its iteration order
in `ServeDNS` is unspecified, so the model takes the zone list (one
possible iteration order) as data. -/

/-- The zone manager state after provisioning. -/
structure ZoneManagerM where
  baseZones : List (String × ForwardZone)
  defaultUpstream : Option UpstreamConfig
deriving Repr

/-- The zone loop of `ZoneManager.ServeDNS`: try each zone in iteration
order; a matching zone that resolves ends the loop with its written
message; a resolution error ends it with SERVFAIL. -/
def zoneLoop (zones : List (String × ForwardZone)) (oracle : String → ExchangeOutcome)
    (r : Msg) (qname : String) (clientGroup : String) : Option Msg :=
  match zones with
  | [] => none
  | (_, z) :: rest =>
    if fzMatch z qname then
      match fzResolve z oracle r clientGroup with
      | .rerr => some (setRcode r rcodeServFail)
      | .handledWith m => some m
      | .unhandled => zoneLoop rest oracle r qname clientGroup
    else zoneLoop rest oracle r qname clientGroup

/-- `ZoneManager.ServeDNS` as in `src/module/dns/zone/manager.go`: note
this variant hardcodes the client group to `"default"`
(`extractClientGroup` ignores the context) and iterates the zone map in
whatever order the runtime produces. -/
def managerServe (zm : ZoneManagerM) (oracle : String → ExchangeOutcome) (r : Msg) : Msg :=
  match r.question with
  | [] => setRcode r rcodeFormErr
  | q :: _ =>
    let qname := normalizeQName q.qname
    match zoneLoop zm.baseZones oracle r qname "default" with
    | some m => m
    | none =>
      match zm.defaultUpstream with
      | some cfg =>
        if !cfg.upstreams.isEmpty then
          match forwardLoop cfg.upstreams oracle r with
          | some m => m
          | none => setRcode r rcodeServFail
        else setRcode r rcodeNXDomain
      | none => setRcode r rcodeNXDomain

/-! ### Upstream resolver (`module/dns/resolver/upstream.go`) -/

/-- The target loop of `UpstreamResolver.ServeDNS`: exchange with each
target in order (targets were validated at provisioning, so no per-target
host:port check here); transport errors and nil responses are skipped;
the first response is returned with its id overwritten by the query's. -/
def upstreamLoop (targets : List String) (oracle : String → ExchangeOutcome) (r : Msg) :
    Option Msg :=
  match targets with
  | [] => none
  | t :: rest =>
    match oracle t with
    | .exResp m => some { m with id := r.id }
    | _ => upstreamLoop rest oracle r

/-- `UpstreamResolver.ServeDNS`: the message written to the client — the
first target response, or a SERVFAIL reply when every target failed. -/
def upstreamServe (targets : List String) (oracle : String → ExchangeOutcome) (r : Msg) :
    Msg :=
  match upstreamLoop targets oracle r with
  | some m => m
  | none => setRcode r rcodeServFail

/-! ### Policy handler dispatch (`module/policy/handler.go`, `ServeDNS`) -/

/-- Handler-subtree selection in `PolicyHandler.ServeDNS`: a nonempty
classified group with a bound subtree selects that subtree, anything else
falls back to the base handler.  Subtrees are abstracted as indices. -/
def policySelect (trees : List (String × Nat)) (base : Nat) (group : String) : Nat :=
  if group ≠ "" then
    match assocGet trees group with
    | some h => h
    | none => base
  else base

/-- `PolicyHandler.ServeDNS` up to the delegation: classify the client,
select the handler subtree, and enrich the request context with the
client-group value stored under `zone.ClientGroupKey` — the Go code
stores the classified group name unconditionally.  Returns the selected
subtree and the stored context value. -/
def policyServe (compiled : List CompiledGroup) (trees : List (String × Nat)) (base : Nat)
    (addr : RemoteAddr) : Nat × String :=
  let clientGroup := classifyDNSRequest compiled addr
  (policySelect trees base clientGroup, clientGroup)

/-! ### Top-level config loader (`config.go`)

`Load`/`startConfig`/`stopConfig` are straight-line imperative code; the
model records the externally visible lifecycle actions they perform, in
program order, as an event trace.  A generation is a numeric tag plus its
app names. -/

/-- Lifecycle events emitted by the loader. -/
inductive LoadEvent where
  | stopApp (gen : Nat) (name : String)
  | provisionApp (gen : Nat) (name : String)
  | startApp (gen : Nat) (name : String)
deriving DecidableEq, Repr

/-- `stopConfig`: stop every app of the generation (followed by context
cancellation, which emits no app event). -/
def stopConfigEvents (gen : Nat) (apps : List String) : List LoadEvent :=
  apps.map (.stopApp gen)

/-- `startConfig`: load and provision every app, then start every app. -/
def startConfigEvents (gen : Nat) (apps : List String) : List LoadEvent :=
  apps.map (.provisionApp gen) ++ apps.map (.startApp gen)

/-- `Load` (`config.go` lines 104–133): under the config mutex, when a
current generation is live it is stopped first, and only then is the new
generation provisioned and started. -/
def loadEvents (current : Option (Nat × List String)) (newGen : Nat)
    (newApps : List String) : List LoadEvent :=
  (match current with
   | some (g, apps) => stopConfigEvents g apps
   | none => []) ++ startConfigEvents newGen newApps

/-! ### Decoded JSON documents (`map[string]interface{}` trees)

The selective-override algorithm of the policy handler operates on the
base configuration decoded into dynamically typed JSON values.  Objects
are association lists (Go maps with unique keys); where Go iterates a map
whose order cannot influence the final map, the model fixes list order.
Numbers are carried opaquely (the algorithm never computes with them). -/

/-- A decoded JSON value. -/
inductive JVal where
  | jnull
  | jbool (b : Bool)
  | jnum (n : Int)
  | jstr (s : String)
  | jarr (items : List JVal)
  | jobj (fields : List (String × JVal))
deriving Repr

/-- An override map: handler id → decoded override fragment (the
policy's `Overrides` field with each `json.RawMessage` decoded; a
fragment that is not a JSON object makes the in-walk unmarshal fail, in
which case the node is left unmerged). -/
def Overrides : Type := List (String × JVal)

/-- The zone-map fold of `PolicyHandler.mergeZones`: insert every array
entry that is an object with a string `zone` field, keyed by that name;
later entries replace earlier ones. -/
def zoneFold (m : List (String × JVal)) : List JVal → List (String × JVal)
  | [] => m
  | z :: rest =>
    zoneFold
      (match z with
       | .jobj zf =>
         match assocGet zf "zone" with
         | some (.jstr name) => assocSet m name z
         | _ => m
       | _ => m) rest

/-- Union-by-zone-name of two zone arrays: base entries first, then
override entries (replacing same-named base entries); the result is the
zone map's values.  (Go iterates the map in unspecified order; the model
uses first-insertion order, which the name-set theorems never depend
on.) -/
def zoneUnion (bs os : List JVal) : List JVal :=
  (zoneFold (zoneFold [] bs) os).map (·.2)

/-- `PolicyHandler.mergeZones`: a base that is not an array yields the
override; an override that is not an array yields the base; two arrays
are unioned by zone name. -/
def mergeZones (b : Option JVal) (ov : JVal) : JVal :=
  match b, ov with
  | some (.jarr bs), .jarr os => .jarr (zoneUnion bs os)
  | some (.jarr bs), _ => .jarr bs
  | _, _ => ov

/-- One key/value pair of the override being merged into the node: the
value replaces the node's value at that key, except that `zones` of a
`dns.zone.manager` node is merged with `mergeZones`. -/
def mergeField (id : String) (acc : List (String × JVal)) (p : String × JVal) :
    List (String × JVal) :=
  if p.1 == "zones" && id == "dns.zone.manager" then
    assocSet acc "zones" (mergeZones (assocGet acc "zones") p.2)
  else assocSet acc p.1 p.2

/-- One merge pass of `applyOverridesToConfig` at an object node: when the
node has a string `handler` field whose id has an override object, fold
the override's pairs into the node. -/
def mergeStep (O : Overrides) (fs : List (String × JVal)) : List (String × JVal) :=
  match assocGet fs "handler" with
  | some (.jstr id) =>
    match assocGet O id with
    | some (.jobj ov) => ov.foldl (mergeField id) fs
    | _ => fs
  | _ => fs

/-- The zone name of one entry of a `zones` array: the string value of
its `zone` field, when the entry is an object carrying one. -/
def zoneNameOf (z : JVal) : Option String :=
  match z with
  | .jobj zf =>
    match assocGet zf "zone" with
    | some (.jstr n) => some n
    | _ => none
  | _ => none

/-- `zoneFold`'s one-entry step, phrased through `zoneNameOf`. -/
def zoneStep (m : List (String × JVal)) (z : JVal) : List (String × JVal) :=
  match zoneNameOf z with
  | some name => assocSet m name z
  | none => m

/-!
`applyOverridesToConfig` / `applyOverridesToSlice` as mutually recursive
functions on a fuel budget.  The Go code recurses into the children of
the node *after* merging, so override-supplied values are walked again;
on override maps whose values contain handlers that are themselves
override keys this recursion can grow the tree and the Go function does
not terminate — the fuel parameter makes that partiality explicit
(`none` = out of fuel).  Deep copies of pure values are identities and
are dropped here (the heap model below keeps them).
-/
mutual

def applyCfg : Nat → Overrides → List (String × JVal) → Option (List (String × JVal))
  | 0, _, _ => none
  | fuel + 1, O, fs => walkFields fuel O (mergeStep O fs)

def walkFields : Nat → Overrides → List (String × JVal) → Option (List (String × JVal))
  | 0, _, _ => none
  | _ + 1, _, [] => some []
  | fuel + 1, O, (k, v) :: rest =>
    match walkChild fuel O v with
    | none => none
    | some v' =>
      match walkFields fuel O rest with
      | none => none
      | some rest' => some ((k, v') :: rest')

def walkChild : Nat → Overrides → JVal → Option JVal
  | 0, _, _ => none
  | fuel + 1, O, .jobj fs => (applyCfg fuel O fs).map .jobj
  | fuel + 1, O, .jarr xs => (applySlice fuel O xs).map .jarr
  | _ + 1, _, v => some v

def applySlice : Nat → Overrides → List JVal → Option (List JVal)
  | 0, _, _ => none
  | _ + 1, _, [] => some []
  | fuel + 1, O, x :: xs =>
    match x with
    | .jobj fs =>
      match applyCfg fuel O fs with
      | none => none
      | some fs' =>
        match applySlice fuel O xs with
        | none => none
        | some xs' => some (.jobj fs' :: xs')
    | _ =>
      match applySlice fuel O xs with
      | none => none
      | some xs' => some (x :: xs')

end

/-!
A value is untouched by an override map when no object node anywhere
inside it has a string `handler` field that is a key of the map.
-/
mutual

def untouchedV (O : Overrides) : JVal → Bool
  | .jobj fs =>
    (match assocGet fs "handler" with
     | some (.jstr id) => (assocGet O id).isNone
     | _ => true) && untouchedF O fs
  | .jarr xs => untouchedS O xs
  | _ => true

def untouchedF (O : Overrides) : List (String × JVal) → Bool
  | [] => true
  | (_, v) :: rest => untouchedV O v && untouchedF O rest

def untouchedS (O : Overrides) : List JVal → Bool
  | [] => true
  | x :: xs => untouchedV O x && untouchedS O xs

end

/-! ### Heap model of the override walker (`deepCopyMap` and in-place merging)

The frame-effect claim is about Go's aliasing semantics: decoded JSON
objects and arrays are reference values, and `applyOverridesToConfig`
mutates the map it builds (`result[k] = v`).  The model makes the store
explicit: objects and arrays live at numeric addresses in a heap,
scalars are immediate.  Every Go map/slice creation is an allocation at
a fresh address, and every `result[k] = v` assignment is a store to the
`result` address.  The theorems show these stores never hit an address
that existed before the call — i.e. the walker operates only on its deep
copy and never mutates the decoded base document. -/

/-- Scalar (non-reference) JSON values. -/
inductive HPrim where
  | hstr (s : String)
  | hnum (n : Int)
  | hbool (b : Bool)
  | hnull
deriving DecidableEq, Repr

/-- A dynamically typed value: a scalar, or a reference to a heap node. -/
inductive HVal where
  | prim (p : HPrim)
  | ref (a : Nat)
deriving DecidableEq, Repr

/-- A heap node: a JSON object (Go map) or array (Go slice). -/
inductive HNode where
  | hobj (fields : List (String × HVal))
  | harr (items : List HVal)
deriving DecidableEq, Repr

/-- Association-list update with `Nat` keys (heap store). -/
def setNat {α : Type} : List (Nat × α) → Nat → α → List (Nat × α)
  | [], a, v => [(a, v)]
  | (a', v') :: rest, a, v =>
    if a' == a then (a, v) :: rest else (a', v') :: setNat rest a v

/-- The heap: allocated nodes and the next fresh address. -/
structure Heap where
  mem : List (Nat × HNode)
  next : Nat
deriving Repr

/-- Read a heap node. -/
def Heap.get (h : Heap) (a : Nat) : Option HNode :=
  (h.mem.find? (fun p => p.1 == a)).map (·.2)

/-- Allocate a node at a fresh address. -/
def Heap.alloc (h : Heap) (n : HNode) : Heap × Nat :=
  ({ mem := (h.next, n) :: h.mem, next := h.next + 1 }, h.next)

/-- Overwrite the node at an address (used only on addresses allocated by
the walker itself; the theorems prove exactly that). -/
def Heap.store (h : Heap) (a : Nat) (n : HNode) : Heap :=
  { h with mem := setNat h.mem a n }

/-- Go `result[k] = v` on the object at address `a`. -/
def setFieldH (h : Heap) (a : Nat) (k : String) (v : HVal) : Heap :=
  match h.get a with
  | some (.hobj fs) => h.store a (.hobj (assocSet fs k v))
  | _ => h

/-- Go `result[k]` read on the object at address `a`. -/
def getFieldH (h : Heap) (a : Nat) (k : String) : Option HVal :=
  match h.get a with
  | some (.hobj fs) => assocGet fs k
  | _ => none

/-!
`deepCopyMap` / `deepCopyValue`: scalars are copied by assignment,
objects and arrays are rebuilt at fresh addresses.
-/
mutual

def deepCopyValH : Nat → Heap → HVal → Option (Heap × HVal)
  | 0, _, _ => none
  | _ + 1, h, .prim p => some (h, .prim p)
  | fuel + 1, h, .ref a =>
    match h.get a with
    | some (.hobj fs) =>
      match copyFieldsH fuel h fs with
      | none => none
      | some (h1, fs') =>
        let (h2, r) := h1.alloc (.hobj fs')
        some (h2, .ref r)
    | some (.harr xs) =>
      match copyItemsH fuel h xs with
      | none => none
      | some (h1, xs') =>
        let (h2, r) := h1.alloc (.harr xs')
        some (h2, .ref r)
    | none => none

def copyFieldsH : Nat → Heap → List (String × HVal) → Option (Heap × List (String × HVal))
  | 0, _, _ => none
  | _ + 1, h, [] => some (h, [])
  | fuel + 1, h, (k, v) :: rest =>
    match deepCopyValH fuel h v with
    | none => none
    | some (h1, v') =>
      match copyFieldsH fuel h1 rest with
      | none => none
      | some (h2, rest') => some (h2, (k, v') :: rest')

def copyItemsH : Nat → Heap → List HVal → Option (Heap × List HVal)
  | 0, _, _ => none
  | _ + 1, h, [] => some (h, [])
  | fuel + 1, h, x :: xs =>
    match deepCopyValH fuel h x with
    | none => none
    | some (h1, x') =>
      match copyItemsH fuel h1 xs with
      | none => none
      | some (h2, xs') => some (h2, x' :: xs')

end

/-!
`json.Unmarshal` of an override fragment: build the decoded value in the
heap, allocating every object and array at a fresh address.
-/
mutual

def allocJValH : Nat → Heap → JVal → Option (Heap × HVal)
  | 0, _, _ => none
  | _ + 1, h, .jnull => some (h, .prim .hnull)
  | _ + 1, h, .jbool b => some (h, .prim (.hbool b))
  | _ + 1, h, .jnum n => some (h, .prim (.hnum n))
  | _ + 1, h, .jstr s => some (h, .prim (.hstr s))
  | fuel + 1, h, .jobj fs =>
    match allocFieldsH fuel h fs with
    | none => none
    | some (h1, fs') =>
      let (h2, r) := h1.alloc (.hobj fs')
      some (h2, .ref r)
  | fuel + 1, h, .jarr xs =>
    match allocItemsH fuel h xs with
    | none => none
    | some (h1, xs') =>
      let (h2, r) := h1.alloc (.harr xs')
      some (h2, .ref r)

def allocFieldsH : Nat → Heap → List (String × JVal) → Option (Heap × List (String × HVal))
  | 0, _, _ => none
  | _ + 1, h, [] => some (h, [])
  | fuel + 1, h, (k, v) :: rest =>
    match allocJValH fuel h v with
    | none => none
    | some (h1, v') =>
      match allocFieldsH fuel h1 rest with
      | none => none
      | some (h2, rest') => some (h2, (k, v') :: rest')

def allocItemsH : Nat → Heap → List JVal → Option (Heap × List HVal)
  | 0, _, _ => none
  | _ + 1, h, [] => some (h, [])
  | fuel + 1, h, x :: xs =>
    match allocJValH fuel h x with
    | none => none
    | some (h1, x') =>
      match allocItemsH fuel h1 xs with
      | none => none
      | some (h2, xs') => some (h2, x' :: xs')

end

/-- The zone-map fold of `mergeZones` on heap values: only reads the
heap (the Go `zoneMap` is a local map, not a JSON node). -/
def hZoneFold (h : Heap) (m : List (String × HVal)) : List HVal → List (String × HVal)
  | [] => m
  | z :: rest =>
    hZoneFold h
      (match z with
       | .ref az =>
         match h.get az with
         | some (.hobj zf) =>
           match assocGet zf "zone" with
           | some (.prim (.hstr name)) => assocSet m name z
           | _ => m
         | _ => m
       | _ => m) rest

/-- `mergeZones` on heap values: reads both arrays, allocates the merged
array at a fresh address; the type-assertion failure paths return the
base or override reference unchanged. -/
def mergeZonesH (h : Heap) (b : Option HVal) (ovv : HVal) : Heap × HVal :=
  match b with
  | some (.ref ab) =>
    match h.get ab with
    | some (.harr bs) =>
      match ovv with
      | .ref ao =>
        match h.get ao with
        | some (.harr os) =>
          let m := hZoneFold h (hZoneFold h [] bs) os
          let (h1, r) := h.alloc (.harr (m.map (·.2)))
          (h1, .ref r)
        | _ => (h, .ref ab)
      | _ => (h, .ref ab)
    | _ => (h, ovv)
  | _ => (h, ovv)

/-- The override-merge loop of `applyOverridesToConfig`: for each decoded
override pair, store it into the `result` object at address `r`
(merging `zones` of a `dns.zone.manager` node). -/
def mergeFieldsH : Nat → Heap → String → Nat → List (String × JVal) → Option Heap
  | 0, _, _, _, _ => none
  | _ + 1, h, _, _, [] => some h
  | fuel + 1, h, id, r, (k, v) :: rest =>
    match allocJValH fuel h v with
    | none => none
    | some (h1, hv) =>
      let (h2, hv') :=
        if k == "zones" && id == "dns.zone.manager" then
          mergeZonesH h1 (getFieldH h1 r "zones") hv
        else (h1, hv)
      mergeFieldsH fuel (setFieldH h2 r k hv') id r rest

/-- The merge phase at one object node: merge only when the node has a
string `handler` field whose id has an override that decodes to an
object. -/
def mergeIntoH (fuel : Nat) (h : Heap) (O : Overrides) (r : Nat) : Option Heap :=
  match getFieldH h r "handler" with
  | some (.prim (.hstr id)) =>
    match assocGet O id with
    | some (.jobj ov) => mergeFieldsH fuel h id r ov
    | _ => some h
  | _ => some h

/-!
`applyOverridesToConfig` / `applyOverridesToSlice` on the heap: deep-copy
the node, merge the override into the copy, then walk the copy's
children, storing each rebuilt child back into the copy.
-/
mutual

def applyCfgH : Nat → Heap → Overrides → Nat → Option (Heap × Nat)
  | 0, _, _, _ => none
  | fuel + 1, h, O, a =>
    match h.get a with
    | some (.hobj fs) =>
      match copyFieldsH fuel h fs with
      | none => none
      | some (h1, fs1) =>
        let (h2, r) := h1.alloc (.hobj fs1)
        match mergeIntoH fuel h2 O r with
        | none => none
        | some h3 =>
          match h3.get r with
          | some (.hobj fs2) =>
            match recurseFieldsH fuel h3 O r fs2 with
            | none => none
            | some h4 => some (h4, r)
          | _ => none
    | _ => none

def recurseFieldsH : Nat → Heap → Overrides → Nat → List (String × HVal) → Option Heap
  | 0, _, _, _, _ => none
  | _ + 1, h, _, _, [] => some h
  | fuel + 1, h, O, r, (k, hv) :: rest =>
    match hv with
    | .ref a' =>
      match h.get a' with
      | some (.hobj _) =>
        match applyCfgH fuel h O a' with
        | none => none
        | some (h1, r') => recurseFieldsH fuel (setFieldH h1 r k (.ref r')) O r rest
      | some (.harr xs) =>
        match applySliceH fuel h O xs with
        | none => none
        | some (h1, xs') =>
          let (h2, ra) := h1.alloc (.harr xs')
          recurseFieldsH fuel (setFieldH h2 r k (.ref ra)) O r rest
      | none => none
    | .prim _ => recurseFieldsH fuel h O r rest

def applySliceH : Nat → Heap → Overrides → List HVal → Option (Heap × List HVal)
  | 0, _, _, _ => none
  | _ + 1, h, _, [] => some (h, [])
  | fuel + 1, h, O, x :: xs =>
    match x with
    | .ref a' =>
      match h.get a' with
      | some (.hobj _) =>
        match applyCfgH fuel h O a' with
        | none => none
        | some (h1, r') =>
          match applySliceH fuel h1 O xs with
          | none => none
          | some (h2, xs') => some (h2, .ref r' :: xs')
      | _ =>
        match applySliceH fuel h O xs with
        | none => none
        | some (h1, xs') => some (h1, x :: xs')
    | .prim _ =>
      match applySliceH fuel h O xs with
      | none => none
      | some (h1, xs') => some (h1, x :: xs')

end

/-- Heap evolution that leaves every previously allocated address
untouched: the frame property the mutation-discipline claim asserts. -/
def HeapPres (h h' : Heap) : Prop :=
  h.next ≤ h'.next ∧ ∀ b, b < h.next → h'.get b = h.get b

/-- Heap evolution that may write only at the single address `r` among
the previously allocated ones (used for the walker's own `result`
object, which it mutates in place). -/
def HeapPresExc (r : Nat) (h h' : Heap) : Prop :=
  h.next ≤ h'.next ∧ ∀ b, b ≠ r → b < h.next → h'.get b = h.get b

/-! ## Theorems -/

/-! ### Sorting lemmas for the classifier -/

theorem insertByPriority_perm (g : CompiledGroup) (l : List CompiledGroup) :
    List.Perm (insertByPriority g l) (g :: l) := by
  induction l with
  | nil => simp [insertByPriority]
  | cons h t ih =>
    simp only [insertByPriority]
    split
    · exact List.Perm.refl _
    · exact (ih.cons h).trans (List.Perm.swap g h t)

theorem sortByPriority_perm (l : List CompiledGroup) :
    List.Perm (sortByPriority l) l := by
  induction l with
  | nil => simp [sortByPriority]
  | cons h t ih =>
    have : sortByPriority (h :: t) = insertByPriority h (sortByPriority t) := rfl
    rw [this]
    exact (insertByPriority_perm h _).trans (ih.cons h)

theorem insertByPriority_sorted (g : CompiledGroup) (l : List CompiledGroup)
    (hl : List.Pairwise (fun a b : CompiledGroup => a.priority ≤ b.priority) l) :
    List.Pairwise (fun a b : CompiledGroup => a.priority ≤ b.priority)
      (insertByPriority g l) := by
  induction l with
  | nil => simp [insertByPriority]
  | cons h t ih =>
    obtain ⟨hh, ht⟩ := List.pairwise_cons.mp hl
    simp only [insertByPriority]
    split
    · rename_i hlt
      refine List.pairwise_cons.mpr ⟨?_, hl⟩
      intro b hb
      rcases List.mem_cons.mp hb with rfl | hbt
      · exact le_of_lt hlt
      · exact le_trans (le_of_lt hlt) (hh b hbt)
    · rename_i hnlt
      refine List.pairwise_cons.mpr ⟨?_, ih ht⟩
      intro b hb
      rcases List.mem_cons.mp ((insertByPriority_perm g t).mem_iff.mp hb) with rfl | hbt
      · exact le_of_not_lt hnlt
      · exact hh b hbt

theorem sortByPriority_sorted (l : List CompiledGroup) :
    List.Pairwise (fun a b : CompiledGroup => a.priority ≤ b.priority)
      (sortByPriority l) := by
  induction l with
  | nil => simp [sortByPriority]
  | cons h t ih => exact insertByPriority_sorted h _ ih

theorem find?_sorted_min (p : CompiledGroup → Bool) (l : List CompiledGroup)
    (hs : List.Pairwise (fun a b : CompiledGroup => a.priority ≤ b.priority) l)
    (g : CompiledGroup) (hf : l.find? p = some g) :
    p g = true ∧ g ∈ l ∧ ∀ g' ∈ l, p g' = true → g.priority ≤ g'.priority := by
  induction l with
  | nil => simp at hf
  | cons h t ih =>
    obtain ⟨hh, ht⟩ := List.pairwise_cons.mp hs
    by_cases hp : p h = true
    · rw [List.find?_cons_of_pos _ hp] at hf
      obtain rfl : h = g := by injection hf
      refine ⟨hp, List.mem_cons_self _ _, ?_⟩
      intro g' hg' _
      rcases List.mem_cons.mp hg' with rfl | hgt
      · exact le_refl _
      · exact hh g' hgt
    · rw [List.find?_cons_of_neg _ hp] at hf
      obtain ⟨hpg, hmem, hmin⟩ := ih ht hf
      refine ⟨hpg, List.mem_cons_of_mem _ hmem, ?_⟩
      intro g' hg' hpg'
      rcases List.mem_cons.mp hg' with rfl | hgt
      · exact absurd hpg' hp
      · exact hmin g' hgt hpg'

/-- C3: for every provisioned classifier and IP, if some group matches
then `ClassifyIP` returns the name of a matching group whose priority is
minimal among all matching groups; if no group matches it returns the
empty name; and when several (possibly equal-priority) groups match and
all group names are nonempty, the result is a nonempty matching name. -/
theorem classifyIP_min_priority (compiled : List CompiledGroup) (ip : Nat) :
    ((∃ g ∈ compiled, groupMatchesIP g ip = true) →
      ∃ g ∈ compiled, groupMatchesIP g ip = true ∧
        classifyIP compiled (some ip) = g.name ∧
        ∀ g' ∈ compiled, groupMatchesIP g' ip = true → g.priority ≤ g'.priority) ∧
    ((∀ g ∈ compiled, groupMatchesIP g ip = false) →
      classifyIP compiled (some ip) = "") ∧
    ((∀ g ∈ compiled, g.name ≠ "") → (∃ g ∈ compiled, groupMatchesIP g ip = true) →
      classifyIP compiled (some ip) ≠ "") := by
  have hperm := sortByPriority_perm compiled
  have hsorted := sortByPriority_sorted compiled
  refine ⟨?_, ?_, ?_⟩
  · intro hex
    obtain ⟨g0, hg0, hm0⟩ := hex
    have hex' : ∃ x ∈ sortByPriority compiled, groupMatchesIP x ip = true :=
      ⟨g0, hperm.mem_iff.mpr hg0, hm0⟩
    obtain ⟨g, hfind⟩ :=
      Option.isSome_iff_exists.mp (List.find?_isSome.mpr hex')
    obtain ⟨hpg, hmem, hmin⟩ := find?_sorted_min _ _ hsorted g hfind
    refine ⟨g, hperm.mem_iff.mp hmem, hpg, ?_, ?_⟩
    · show classifyIP compiled (some ip) = g.name
      simp only [classifyIP, hfind]
    · intro g' hg' hm'
      exact hmin g' (hperm.mem_iff.mpr hg') hm'
  · intro hall
    have : List.find? (fun g => groupMatchesIP g ip) (sortByPriority compiled) = none := by
      rw [List.find?_eq_none]
      intro x hx
      simp [hall x (hperm.mem_iff.mp hx)]
    simp only [classifyIP, this]
  · intro hnames hex
    obtain ⟨g0, hg0, hm0⟩ := hex
    have hex' : ∃ x ∈ sortByPriority compiled, groupMatchesIP x ip = true :=
      ⟨g0, hperm.mem_iff.mpr hg0, hm0⟩
    obtain ⟨g, hfind⟩ :=
      Option.isSome_iff_exists.mp (List.find?_isSome.mpr hex')
    have : classifyIP compiled (some ip) = g.name := by
      simp only [classifyIP, hfind]
    rw [this]
    exact hnames g (hperm.mem_iff.mp (List.mem_of_find?_eq_some hfind))

/-- Witness for C3 at a concrete classifier with two equal-priority
groups both matching IP `5`. -/
theorem classifyIP_min_priority_witness :
    ∃ g ∈ [CompiledGroup.mk "a" 1 [] [5], CompiledGroup.mk "b" 1 [] [5]],
      groupMatchesIP g 5 = true ∧
      classifyIP [CompiledGroup.mk "a" 1 [] [5], CompiledGroup.mk "b" 1 [] [5]]
        (some 5) = g.name ∧
      ∀ g' ∈ [CompiledGroup.mk "a" 1 [] [5], CompiledGroup.mk "b" 1 [] [5]],
        groupMatchesIP g' 5 = true → g.priority ≤ g'.priority :=
  (classifyIP_min_priority
    [CompiledGroup.mk "a" 1 [] [5], CompiledGroup.mk "b" 1 [] [5]] 5).1
    ⟨CompiledGroup.mk "a" 1 [] [5], by decide, by decide⟩

/-! ### C7: classifier provisioning errors -/

theorem compileSources_ok_iff (gname : String) (ss : List String) :
    (compileSources gname ss).isOk = true ↔
      ∀ s ∈ ss, (parseSource s).isSome = true := by
  induction ss with
  | nil => simp [compileSources, Except.isOk, Except.toBool]
  | cons s rest ih =>
    simp only [compileSources]
    cases hp : parseSource s with
    | none =>
      simp only [Except.isOk, Except.toBool]
      constructor
      · intro h; cases h
      · intro h
        have := h s (List.mem_cons_self _ _)
        rw [hp] at this
        cases this
    | some p =>
      cases hc : compileSources gname rest with
      | error e =>
        simp only [Except.isOk, Except.toBool]
        constructor
        · intro h; cases h
        · intro h
          have : (compileSources gname rest).isOk = true :=
            ih.mpr fun t ht => h t (List.mem_cons_of_mem _ ht)
          rw [hc] at this
          cases this
      | ok pr =>
        have hrest : ∀ s' ∈ rest, (parseSource s').isSome = true := by
          intro t ht
          have : (compileSources gname rest).isOk = true := by
            rw [hc]; rfl
          exact ih.mp this t ht
        obtain ⟨ns, as⟩ := pr
        cases p with
        | cidr n =>
          simp only [Except.isOk, Except.toBool]
          constructor
          · intro _ t ht
            rcases List.mem_cons.mp ht with rfl | htr
            · rw [hp]; rfl
            · exact hrest t htr
          · intro _; trivial
        | ip a =>
          simp only [Except.isOk, Except.toBool]
          constructor
          · intro _ t ht
            rcases List.mem_cons.mp ht with rfl | htr
            · rw [hp]; rfl
            · exact hrest t htr
          · intro _; trivial

theorem compileGroups_ok_iff (groups : List (String × ClientGroup)) :
    (compileGroups groups).isOk = true ↔
      ∀ p ∈ groups, ∀ s ∈ p.2.sources, (parseSource s).isSome = true := by
  induction groups with
  | nil => simp [compileGroups, Except.isOk, Except.toBool]
  | cons g rest ih =>
    obtain ⟨n, cg⟩ := g
    simp only [compileGroups]
    cases hs : compileSources n cg.sources with
    | error e =>
      simp only [Except.isOk, Except.toBool]
      constructor
      · intro h; cases h
      · intro h
        have : (compileSources n cg.sources).isOk = true :=
          (compileSources_ok_iff n cg.sources).mpr
            (h (n, cg) (List.mem_cons_self _ _))
        rw [hs] at this
        cases this
    | ok pr =>
      have hsrc : ∀ s ∈ cg.sources, (parseSource s).isSome = true := by
        have : (compileSources n cg.sources).isOk = true := by rw [hs]; rfl
        exact (compileSources_ok_iff n cg.sources).mp this
      obtain ⟨ns, as⟩ := pr
      cases hc : compileGroups rest with
      | error e =>
        simp only [Except.isOk, Except.toBool]
        constructor
        · intro h; cases h
        · intro h
          have : (compileGroups rest).isOk = true :=
            ih.mpr fun q hq => h q (List.mem_cons_of_mem _ hq)
          rw [hc] at this
          cases this
      | ok cs =>
        simp only [Except.isOk, Except.toBool]
        constructor
        · intro _ q hq
          rcases List.mem_cons.mp hq with rfl | hqr
          · exact hsrc
          · exact (ih.mp (by rw [hc]; rfl)) q hqr
        · intro _; trivial

/-- C7 (amended): `Provision` succeeds iff at least one group is
configured and every source of every group parses as an IP or CIDR; in
particular a group with an *empty* source list and a group with a
*negative* priority are accepted — the `EmptyGroup` and
`NegativePriority` checks of the spec live in the policy handler's
`validateClientGroup`, not in the classifier's `Provision`. -/
theorem provisionClassifier_ok_iff (groups : List (String × ClientGroup)) :
    (provisionClassifier groups).isOk = true ↔
      (groups ≠ [] ∧
        ∀ p ∈ groups, ∀ s ∈ p.2.sources, (parseSource s).isSome = true) := by
  simp only [provisionClassifier]
  cases groups with
  | nil => simp [Except.isOk, Except.toBool]
  | cons g rest =>
    simp only [List.isEmpty_cons, if_neg (by simp : ¬(false = true))]
    rw [compileGroups_ok_iff]
    simp

/-- Witness for C7's amended theorem at a concrete one-group
configuration. -/
theorem provisionClassifier_ok_iff_witness :
    (provisionClassifier [("g", ClientGroup.mk ["10.0.0.1"] 0)]).isOk = true :=
  (provisionClassifier_ok_iff [("g", ClientGroup.mk ["10.0.0.1"] 0)]).mpr
    ⟨by decide, by decide⟩

/-- Counterexample to C7 as stated: a configuration whose only group has
no sources at all and a negative priority is accepted by `Provision`
(`.ok`, not an `EmptyGroup` or `NegativePriority` error). -/
theorem provisionClassifier_no_emptyGroup_check :
    provisionClassifier [("g", ClientGroup.mk [] (-1))] =
      .ok [CompiledGroup.mk "g" (-1) [] []] := rfl

/-! ### C10: totality of classification at the public interface -/

/-- C10: classification is total: an address that is neither a UDP nor a
TCP endpoint and whose string form does not split as host:port, or whose
host does not parse as an IP, yields a `nil` client IP rather than a
failure; classifying a `nil` IP yields the empty group name; hence
`ClassifyDNSRequest` returns the empty name (and the query is dispatched
to the base handler) for every such address. -/
theorem classifyDNSRequest_total (compiled : List CompiledGroup) :
    (∀ s, splitHostPort s = none → extractClientIP (.other s) = none) ∧
    (∀ s host port, splitHostPort s = some (host, port) → goParseIP host = none →
      extractClientIP (.other s) = none) ∧
    (classifyIP compiled none = "") ∧
    (∀ addr, extractClientIP addr = none →
      classifyDNSRequest compiled addr = "") := by
  refine ⟨?_, ?_, rfl, ?_⟩
  · intro s hs
    simp [extractClientIP, hs]
  · intro s host port hs hp
    simp [extractClientIP, hs, hp]
  · intro addr ha
    simp [classifyDNSRequest, ha, classifyIP]

/-- Witness for C10 at the unparseable address `"garbage"` and a concrete
classifier. -/
theorem classifyDNSRequest_total_witness :
    (extractClientIP (.other "garbage") = none) ∧
    (classifyIP [CompiledGroup.mk "g" 0 [] [5]] none = "") ∧
    (classifyDNSRequest [CompiledGroup.mk "g" 0 [] [5]] (.other "garbage") = "") :=
  ⟨(classifyDNSRequest_total []).1 "garbage" (by decide),
   (classifyDNSRequest_total [CompiledGroup.mk "g" 0 [] [5]]).2.2.1,
   (classifyDNSRequest_total [CompiledGroup.mk "g" 0 [] [5]]).2.2.2
     (.other "garbage")
     ((classifyDNSRequest_total []).1 "garbage" (by decide))⟩

/-! ### C8: upstream resolver failover -/

theorem upstreamLoop_first_resp (oracle : String → ExchangeOutcome) (r : Msg) :
    ∀ (pre : List String) (t : String) (post : List String) (m : Msg),
      (∀ t' ∈ pre, isRespOutcome (oracle t') = false) →
      oracle t = .exResp m →
      upstreamLoop (pre ++ t :: post) oracle r = some { m with id := r.id } := by
  intro pre
  induction pre with
  | nil =>
    intro t post m _ ht
    simp [upstreamLoop, ht]
  | cons p pre' ih =>
    intro t post m hpre ht
    have hp : isRespOutcome (oracle p) = false := hpre p (List.mem_cons_self _ _)
    have hrest := ih t post m (fun t' ht' => hpre t' (List.mem_cons_of_mem _ ht')) ht
    simp only [List.cons_append, upstreamLoop]
    cases ho : oracle p with
    | exErr => exact hrest
    | exNil => exact hrest
    | exResp m' => rw [ho] at hp; cases hp

theorem upstreamLoop_all_fail (oracle : String → ExchangeOutcome) (r : Msg) :
    ∀ targets : List String,
      (∀ t ∈ targets, isRespOutcome (oracle t) = false) →
      upstreamLoop targets oracle r = none := by
  intro targets
  induction targets with
  | nil => intro _; rfl
  | cons t rest ih =>
    intro h
    have ht : isRespOutcome (oracle t) = false := h t (List.mem_cons_self _ _)
    simp only [upstreamLoop]
    cases ho : oracle t with
    | exErr => exact ih fun t' ht' => h t' (List.mem_cons_of_mem _ ht')
    | exNil => exact ih fun t' ht' => h t' (List.mem_cons_of_mem _ ht')
    | exResp m => rw [ho] at ht; cases ht

/-- C8: targets are tried in order; a target yielding a transport error
or nil response is skipped; the first (non-nil) response of any rcode is
returned with its transaction id overwritten by the query's id; and when
every target fails the client receives a SERVFAIL reply whose id equals
the query's id. -/
theorem upstreamServe_failover (oracle : String → ExchangeOutcome) (r : Msg) :
    (∀ (pre : List String) (t : String) (post : List String) (m : Msg),
      (∀ t' ∈ pre, isRespOutcome (oracle t') = false) →
      oracle t = .exResp m →
      upstreamServe (pre ++ t :: post) oracle r = { m with id := r.id }) ∧
    (∀ targets : List String,
      (∀ t ∈ targets, isRespOutcome (oracle t) = false) →
      upstreamServe targets oracle r = setRcode r rcodeServFail ∧
      (upstreamServe targets oracle r).id = r.id ∧
      (upstreamServe targets oracle r).rcode = rcodeServFail) := by
  constructor
  · intro pre t post m hpre ht
    simp only [upstreamServe, upstreamLoop_first_resp oracle r pre t post m hpre ht]
  · intro targets hall
    have hnone := upstreamLoop_all_fail oracle r targets hall
    refine ⟨?_, ?_, ?_⟩ <;> simp [upstreamServe, hnone, setRcode, setReply]

/-- Witness for C8: target `"a"` errors, target `"b"` answers with id 9;
the client sees `"b"`'s answer under the query id 1234; with both targets
failing the client sees SERVFAIL under id 1234. -/
theorem upstreamServe_failover_witness :
    (upstreamServe ["a", "b"]
        (fun t => if t == "b" then .exResp (Msg.mk 9 0 true [] []) else .exErr)
        (Msg.mk 1234 0 false [] []) = Msg.mk 1234 0 true [] []) ∧
    (upstreamServe ["a", "b"] (fun _ => .exErr) (Msg.mk 1234 0 false [] []) =
      setRcode (Msg.mk 1234 0 false [] []) rcodeServFail) :=
  ⟨(upstreamServe_failover
      (fun t => if t == "b" then .exResp (Msg.mk 9 0 true [] []) else .exErr)
      (Msg.mk 1234 0 false [] [])).1 ["a"] "b" [] (Msg.mk 9 0 true [] [])
      (by decide) (by decide),
   ((upstreamServe_failover (fun _ => .exErr) (Msg.mk 1234 0 false [] [])).2
      ["a", "b"] (by decide)).1⟩

/-! ### C5: policy dispatch and context enrichment -/

/-- C5 (amended): on each query the client is classified; a nonempty
classified group with a bound subtree receives the query on that subtree;
otherwise the query goes to the base subtree.  In *every* case the
per-request context is enriched with the classified group name — the Go
code stores `clientGroup` unconditionally, so on the base-subtree
fallback the tag is the classified name (empty only when classification
matched no group), not the empty tag. -/
theorem policyServe_dispatch (compiled : List CompiledGroup)
    (trees : List (String × Nat)) (base : Nat) (addr : RemoteAddr) :
    ((policyServe compiled trees base addr).2 = classifyDNSRequest compiled addr) ∧
    (classifyDNSRequest compiled addr = "" →
      (policyServe compiled trees base addr).1 = base) ∧
    (∀ h, classifyDNSRequest compiled addr ≠ "" →
      assocGet trees (classifyDNSRequest compiled addr) = some h →
      (policyServe compiled trees base addr).1 = h) ∧
    (classifyDNSRequest compiled addr ≠ "" →
      assocGet trees (classifyDNSRequest compiled addr) = none →
      (policyServe compiled trees base addr).1 = base) := by
  refine ⟨rfl, ?_, ?_, ?_⟩
  · intro hg
    simp [policyServe, policySelect, hg]
  · intro h hg hget
    simp [policyServe, policySelect, hg, hget]
  · intro hg hget
    simp [policyServe, policySelect, hg, hget]

/-- Witness for C5's amended theorem: group `"g"` (matching IP 5) has a
bound subtree 3; the query from UDP 5 goes to subtree 3 with tag `"g"`. -/
theorem policyServe_dispatch_witness :
    ((policyServe [CompiledGroup.mk "g" 0 [] [5]] [("g", 3)] 7 (.udp (some 5))).2
        = classifyDNSRequest [CompiledGroup.mk "g" 0 [] [5]] (.udp (some 5))) ∧
    ((policyServe [CompiledGroup.mk "g" 0 [] [5]] [("g", 3)] 7 (.udp (some 5))).1 = 3) :=
  ⟨(policyServe_dispatch [CompiledGroup.mk "g" 0 [] [5]] [("g", 3)] 7 (.udp (some 5))).1,
   (policyServe_dispatch [CompiledGroup.mk "g" 0 [] [5]] [("g", 3)] 7
      (.udp (some 5))).2.2.1 3 (by decide) (by decide)⟩

/-- Counterexample to C5 as stated: the client classifies into group
`"g"`, which has *no* bound subtree, so the query goes to the base
subtree — but the context is enriched with the tag `"g"`, not with the
empty tag the claim requires. -/
theorem policyServe_base_fallback_keeps_tag :
    policyServe [CompiledGroup.mk "g" 0 [] [5]] [] 7 (.udp (some 5)) = (7, "g") ∧
    ("g" : String) ≠ "" :=
  ⟨rfl, by decide⟩

/-! ### C6: order of generation replacement in `Load` -/

/-- C6 (refuted by the code): `Load` over a live generation emits, in
program order, first the stop events of the *old* generation and only
then the provision and start events of the *new* one — concretely shown
on a one-app trace, and in general every `stopApp` of the old generation
strictly precedes every `startApp` of the new generation.  This is the
opposite of the claimed order (new fully started before old stopped). -/
theorem loadEvents_stops_old_before_new_starts :
    (loadEvents (some (1, ["dns"])) 2 ["dns"] =
      [.stopApp 1 "dns", .provisionApp 2 "dns", .startApp 2 "dns"]) ∧
    (∀ (g g' : Nat) (olds news : List String) (i j : Nat) (a b : String),
      (loadEvents (some (g, olds)) g' news)[i]? = some (.stopApp g a) →
      (loadEvents (some (g, olds)) g' news)[j]? = some (.startApp g' b) →
      i < j) := by
  refine ⟨rfl, ?_⟩
  intro g g' olds news i j a b hi hj
  have hilt : i < olds.length := by
    by_contra hge
    push_neg at hge
    have hlen : (List.map (LoadEvent.stopApp g) olds).length ≤ i := by
      simpa using hge
    rw [loadEvents, stopConfigEvents, List.getElem?_append_right hlen] at hi
    have hmem := List.getElem?_mem hi
    rw [startConfigEvents] at hmem
    rcases List.mem_append.mp hmem with hmem | hmem <;>
      · obtain ⟨x, _, hx⟩ := List.mem_map.mp hmem
        cases hx
  have hjge : olds.length ≤ j := by
    by_contra hlt
    push_neg at hlt
    have hlen : j < (List.map (LoadEvent.stopApp g) olds).length := by
      simpa using hlt
    rw [loadEvents, stopConfigEvents, List.getElem?_append, if_pos hlen] at hj
    have hmem := List.getElem?_mem hj
    obtain ⟨x, _, hx⟩ := List.mem_map.mp hmem
    cases hx
  exact lt_of_lt_of_le hilt hjge

/-- Witness for C6's theorem: in the concrete one-app trace the old
generation's stop (index 0) precedes the new generation's start
(index 2). -/
theorem loadEvents_stops_old_before_new_starts_witness :
    (0 : Nat) < 2 :=
  (loadEvents_stops_old_before_new_starts).2 1 2 ["dns"] ["dns"] 0 2 "dns" "dns"
    (by rfl) (by rfl)

/-! ### C2: zone-manager dispatch order -/

/-- C2 (refuted by the code): the `ServeDNS` in
`src/module/dns/zone/manager.go` iterates its zone map in whatever order
the runtime produces and dispatches to the *first* matching zone that
resolves, with no sorting by zone-name length.  Concretely, with zones
`example.com.` and `sub.example.com.` both matching
`a.sub.example.com.`, the iteration order that lists `example.com.`
first answers from the *shorter* zone (`1.2.3.4`), while the other order
answers from the longest (`5.6.7.8`): the dispatch is neither
longest-first nor deterministic. -/
theorem managerServe_not_longest_match :
    (fzMatch (newForwardZone "example.com."
        [("a.sub.example.com.", ⟨"A", "1.2.3.4", 60⟩)] none) "a.sub.example.com." = true) ∧
    (fzMatch (newForwardZone "sub.example.com."
        [("a.sub.example.com.", ⟨"A", "5.6.7.8", 60⟩)] none) "a.sub.example.com." = true) ∧
    ("example.com.".length < "sub.example.com.".length) ∧
    (managerServe
        ⟨[("example.com.", newForwardZone "example.com."
            [("a.sub.example.com.", ⟨"A", "1.2.3.4", 60⟩)] none),
          ("sub.example.com.", newForwardZone "sub.example.com."
            [("a.sub.example.com.", ⟨"A", "5.6.7.8", 60⟩)] none)], none⟩
        (fun _ => .exErr) ⟨7, 0, false, [⟨"a.sub.example.com.", .qA⟩], []⟩ =
      ⟨7, 0, true, [⟨"a.sub.example.com.", .qA⟩],
        [⟨"a.sub.example.com.", "A", 60, "1.2.3.4"⟩]⟩) ∧
    (managerServe
        ⟨[("sub.example.com.", newForwardZone "sub.example.com."
            [("a.sub.example.com.", ⟨"A", "5.6.7.8", 60⟩)] none),
          ("example.com.", newForwardZone "example.com."
            [("a.sub.example.com.", ⟨"A", "1.2.3.4", 60⟩)] none)], none⟩
        (fun _ => .exErr) ⟨7, 0, false, [⟨"a.sub.example.com.", .qA⟩], []⟩ =
      ⟨7, 0, true, [⟨"a.sub.example.com.", .qA⟩],
        [⟨"a.sub.example.com.", "A", 60, "5.6.7.8"⟩]⟩) := by
  refine ⟨rfl, rfl, by decide, rfl, rfl⟩

/-! ### C4: forward-zone resolution -/

theorem forwardLoop_first_resp (oracle : String → ExchangeOutcome) (r : Msg) :
    ∀ (pre : List String) (t : String) (post : List String) (m : Msg),
      (∀ t' ∈ pre, (splitHostPort t').isSome = false ∨
        isRespOutcome (oracle t') = false) →
      (splitHostPort t).isSome = true →
      oracle t = .exResp m →
      forwardLoop (pre ++ t :: post) oracle r = some { m with id := r.id } := by
  intro pre
  induction pre with
  | nil =>
    intro t post m _ hv ht
    simp [forwardLoop, hv, ht]
  | cons p pre' ih =>
    intro t post m hpre hv ht
    have hrest := ih t post m (fun t' ht' => hpre t' (List.mem_cons_of_mem _ ht')) hv ht
    simp only [List.cons_append, forwardLoop]
    rcases hpre p (List.mem_cons_self _ _) with hp | hp
    · rw [hp]
      simpa using hrest
    · cases hvp : (splitHostPort p).isSome with
      | false => simp [hvp, hrest]
      | true =>
        simp only [hvp, if_pos rfl]
        cases ho : oracle p with
        | exErr => exact hrest
        | exNil => exact hrest
        | exResp m' => rw [ho] at hp; cases hp

theorem forwardLoop_all_fail (oracle : String → ExchangeOutcome) (r : Msg) :
    ∀ targets : List String,
      (∀ t ∈ targets, (splitHostPort t).isSome = false ∨
        isRespOutcome (oracle t) = false) →
      forwardLoop targets oracle r = none := by
  intro targets
  induction targets with
  | nil => intro _; rfl
  | cons t rest ih =>
    intro h
    have hrest := ih fun t' ht' => h t' (List.mem_cons_of_mem _ ht')
    simp only [forwardLoop]
    rcases h t (List.mem_cons_self _ _) with ht | ht
    · simp [ht, hrest]
    · cases hvt : (splitHostPort t).isSome with
      | false => simp [hvt, hrest]
      | true =>
        simp only [hvt, if_pos rfl]
        cases ho : oracle t with
        | exErr => exact hrest
        | exNil => exact hrest
        | exResp m => rw [ho] at ht; cases ht

/-- The TTL written by `createDNSResponse`: every answer record carries
the record's ttl, defaulting to 300 when the record's ttl is 0. -/
theorem createDNSResponse_ttl (r : Msg) (record : DNSRecord) (qname : String) :
    ∀ rr ∈ (createDNSResponse r record qname).answer,
      rr.ttl = if record.ttl = 0 then 300 else record.ttl := by
  intro rr hrr
  unfold createDNSResponse at hrr
  dsimp only at hrr
  split at hrr
  · rcases hp : goParseIP record.value with _ | ip <;> rw [hp] at hrr
    · simp [setRcode, setReply] at hrr
    · simp only [setReply] at hrr
      rcases List.mem_singleton.mp hrr with rfl
      rfl
  · split at hrr
    · rcases hp : goParseIP record.value with _ | ip <;> rw [hp] at hrr
      · simp [setRcode, setReply] at hrr
      · simp only [setReply] at hrr
        rcases List.mem_singleton.mp hrr with rfl
        rfl
    · split at hrr
      · simp only [setReply] at hrr
        rcases List.mem_singleton.mp hrr with rfl
        rfl
      · split at hrr
        · simp only [setReply] at hrr
          rcases List.mem_singleton.mp hrr with rfl
          rfl
        · simp [setRcode, setReply] at hrr

/-- C4 (amended): for a query with a question, (1) a zone-matching qname
whose normalized name has a record of compatible type is answered with
the synthesized response (`handled = true`), whose answer TTL is the
record's ttl or 300 when that is 0; (2) otherwise, with a configured
zone-scoped upstream, the first target with valid host:port form whose
exchange yields a response determines the result, returned as
`handled = true` with the response's id overwritten by the query's;
(3) when the upstream is configured but *every* target fails, `Resolve`
returns `handled = false` (it does not reply SERVFAIL — the query falls
through to the next zone or the default upstream); (4) with no upstream
it returns `handled = false`; (5) a qname the zone does not match
returns `handled = false`. -/
theorem fzResolve_spec (fz : ForwardZone) (oracle : String → ExchangeOutcome)
    (r : Msg) (cg : String) (q : Question) (qs : List Question)
    (hq : r.question = q :: qs) :
    (∀ rec, fzMatch fz (normalizeQName q.qname) = true →
      assocGet fz.records (normalizeQName q.qname) = some rec →
      matchesQType rec q.qtype = true →
      fzResolve fz oracle r cg =
        .handledWith (createDNSResponse r rec (normalizeQName q.qname)) ∧
      ∀ rr ∈ (createDNSResponse r rec (normalizeQName q.qname)).answer,
        rr.ttl = if rec.ttl = 0 then 300 else rec.ttl) ∧
    (∀ cfg pre t post m,
      fzMatch fz (normalizeQName q.qname) = true →
      (∀ rec, assocGet fz.records (normalizeQName q.qname) = some rec →
        matchesQType rec q.qtype = false) →
      fz.upstreamConfig = some cfg →
      cfg.upstreams = pre ++ t :: post →
      (∀ t' ∈ pre, (splitHostPort t').isSome = false ∨
        isRespOutcome (oracle t') = false) →
      (splitHostPort t).isSome = true →
      oracle t = .exResp m →
      fzResolve fz oracle r cg = .handledWith { m with id := r.id }) ∧
    (∀ cfg,
      fzMatch fz (normalizeQName q.qname) = true →
      (∀ rec, assocGet fz.records (normalizeQName q.qname) = some rec →
        matchesQType rec q.qtype = false) →
      fz.upstreamConfig = some cfg →
      (∀ t ∈ cfg.upstreams, (splitHostPort t).isSome = false ∨
        isRespOutcome (oracle t) = false) →
      fzResolve fz oracle r cg = .unhandled) ∧
    (fzMatch fz (normalizeQName q.qname) = true →
      (∀ rec, assocGet fz.records (normalizeQName q.qname) = some rec →
        matchesQType rec q.qtype = false) →
      fz.upstreamConfig = none →
      fzResolve fz oracle r cg = .unhandled) ∧
    (fzMatch fz (normalizeQName q.qname) = false →
      fzResolve fz oracle r cg = .unhandled) := by
  have hbody : fzResolve fz oracle r cg =
      (if fzMatch fz (normalizeQName q.qname) then
        match assocGet fz.records (normalizeQName q.qname) with
        | some record =>
          if matchesQType record q.qtype then
            .handledWith (createDNSResponse r record (normalizeQName q.qname))
          else forwardToUpstream fz oracle r
        | none => forwardToUpstream fz oracle r
      else .unhandled) := by
    unfold fzResolve
    rw [hq]
  refine ⟨?_, ?_, ?_, ?_, ?_⟩
  · intro rec hm hget htype
    refine ⟨?_, createDNSResponse_ttl r rec (normalizeQName q.qname)⟩
    rw [hbody, if_pos hm, hget]
    dsimp only
    rw [if_pos htype]
  · intro cfg pre t post m hm hmiss hcfg hts hpre hv ht
    have hfwd : forwardToUpstream fz oracle r = .handledWith { m with id := r.id } := by
      unfold forwardToUpstream
      rw [hcfg]
      dsimp only
      have hne : cfg.upstreams.isEmpty = false := by
        rw [hts]; cases pre <;> rfl
      rw [if_neg (by simp [hne])]
      rw [hts, forwardLoop_first_resp oracle r pre t post m hpre hv ht]
    rw [hbody, if_pos hm]
    cases hget : assocGet fz.records (normalizeQName q.qname) with
    | none => exact hfwd
    | some rec =>
      dsimp only
      rw [if_neg (by simp [hmiss rec hget])]
      exact hfwd
  · intro cfg hm hmiss hcfg hall
    have hfwd : forwardToUpstream fz oracle r = .unhandled := by
      unfold forwardToUpstream
      rw [hcfg]
      dsimp only
      cases hne : cfg.upstreams.isEmpty with
      | true => simp [hne]
      | false =>
        rw [if_neg (by simp [hne])]
        rw [forwardLoop_all_fail oracle r cfg.upstreams hall]
    rw [hbody, if_pos hm]
    cases hget : assocGet fz.records (normalizeQName q.qname) with
    | none => exact hfwd
    | some rec =>
      dsimp only
      rw [if_neg (by simp [hmiss rec hget])]
      exact hfwd
  · intro hm hmiss hcfg
    have hfwd : forwardToUpstream fz oracle r = .unhandled := by
      unfold forwardToUpstream
      rw [hcfg]
    rw [hbody, if_pos hm]
    cases hget : assocGet fz.records (normalizeQName q.qname) with
    | none => exact hfwd
    | some rec =>
      dsimp only
      rw [if_neg (by simp [hmiss rec hget])]
      exact hfwd
  · intro hm
    rw [hbody, if_neg (by simp [hm])]

/-- Witness for C4's amended theorem: a record with ttl 0 is served with
TTL 300, `handled = true`. -/
theorem fzResolve_spec_witness :
    fzResolve
        (newForwardZone "example.com."
          [("api.example.com.", ⟨"A", "192.0.2.10", 0⟩)] none)
        (fun _ => .exErr) ⟨1234, 0, false, [⟨"api.example.com.", .qA⟩], []⟩ "default" =
      .handledWith (createDNSResponse ⟨1234, 0, false, [⟨"api.example.com.", .qA⟩], []⟩
        ⟨"A", "192.0.2.10", 0⟩ (normalizeQName "api.example.com.")) ∧
    ∀ rr ∈ (createDNSResponse ⟨1234, 0, false, [⟨"api.example.com.", .qA⟩], []⟩
        ⟨"A", "192.0.2.10", 0⟩ (normalizeQName "api.example.com.")).answer,
      rr.ttl = if (0 : Nat) = 0 then 300 else 0 :=
  (fzResolve_spec
      (newForwardZone "example.com." [("api.example.com.", ⟨"A", "192.0.2.10", 0⟩)] none)
      (fun _ => .exErr) ⟨1234, 0, false, [⟨"api.example.com.", .qA⟩], []⟩ "default"
      ⟨"api.example.com.", .qA⟩ [] rfl).1 ⟨"A", "192.0.2.10", 0⟩
    (by decide) (by decide) (by decide)

/-- Counterexample to C4 as stated: a zone with a configured upstream
whose only target fails; `Resolve` returns `handled = false`, not the
`handled = true` SERVFAIL the claim requires. -/
theorem fzResolve_all_fail_unhandled :
    fzResolve (newForwardZone "example.com." [] (some ⟨["9.9.9.9:53"], "", ""⟩))
        (fun _ => .exErr) ⟨7, 0, false, [⟨"a.example.com.", .qA⟩], []⟩ "default" =
      .unhandled ∧
    fzResolve (newForwardZone "example.com." [] (some ⟨["9.9.9.9:53"], "", ""⟩))
        (fun _ => .exErr) ⟨7, 0, false, [⟨"a.example.com.", .qA⟩], []⟩ "default" ≠
      .handledWith
        (setRcode ⟨7, 0, false, [⟨"a.example.com.", .qA⟩], []⟩ rcodeServFail) :=
  ⟨rfl, by decide⟩

/-! ### C1: association-list and merge-pass lemmas -/

theorem assocGet_cons {α : Type} (a : String) (b : α) (rest : List (String × α))
    (k : String) :
    assocGet ((a, b) :: rest) k = if a == k then some b else assocGet rest k := by
  simp only [assocGet, List.find?_cons]
  cases h : (a == k) <;> simp [h]

theorem assocGet_set_self {α : Type} (fs : List (String × α)) (k : String) (v : α) :
    assocGet (assocSet fs k v) k = some v := by
  induction fs with
  | nil => simp [assocSet, assocGet_cons]
  | cons p rest ih =>
    obtain ⟨a, b⟩ := p
    simp only [assocSet]
    split
    · simp [assocGet_cons]
    · next h =>
      rw [assocGet_cons, if_neg h]
      exact ih

theorem assocGet_set_other {α : Type} (fs : List (String × α)) (k k' : String)
    (v : α) (hne : k' ≠ k) :
    assocGet (assocSet fs k v) k' = assocGet fs k' := by
  have hknk : ¬((k == k') = true) := by
    simp only [beq_iff_eq]
    exact fun h => hne h.symm
  induction fs with
  | nil =>
    simp only [assocSet, assocGet_cons]
    rw [if_neg hknk]
  | cons p rest ih =>
    obtain ⟨a, b⟩ := p
    simp only [assocSet]
    split
    · next h =>
      have ha : a = k := by simpa [beq_iff_eq] using h
      subst ha
      rw [assocGet_cons, assocGet_cons, if_neg hknk, if_neg hknk]
    · next h =>
      rw [assocGet_cons, assocGet_cons]
      by_cases hk' : (a == k') = true
      · rw [if_pos hk', if_pos hk']
      · rw [if_neg hk', if_neg hk']
        exact ih

/-- Which key a `mergeField` step writes: always the pair's own key. -/
theorem mergeField_set_key (id : String) (acc : List (String × JVal))
    (p : String × JVal) (k : String) (hne : k ≠ p.1) :
    assocGet (mergeField id acc p) k = assocGet acc k := by
  unfold mergeField
  by_cases hz : (p.1 == "zones" && id == "dns.zone.manager") = true
  · have hp1 : p.1 = "zones" := by
      have := (Bool.and_eq_true _ _).mp hz
      simpa [beq_iff_eq] using this.1
    rw [if_pos hz]
    exact assocGet_set_other _ _ _ _ (by rw [← hp1]; exact hne)
  · rw [if_neg hz]
    exact assocGet_set_other _ _ _ _ hne

theorem foldMerge_not_mem (id : String) :
    ∀ (l : List (String × JVal)) (acc : List (String × JVal)) (k : String),
      k ∉ l.map Prod.fst →
      assocGet (l.foldl (mergeField id) acc) k = assocGet acc k := by
  intro l
  induction l with
  | nil => intro acc k _; rfl
  | cons p l' ih =>
    intro acc k hk
    simp only [List.map_cons, List.mem_cons, not_or] at hk
    rw [List.foldl_cons, ih _ k (by simpa using hk.2)]
    exact mergeField_set_key id acc p k hk.1

theorem foldMerge_mem (id : String) :
    ∀ (l : List (String × JVal)) (acc : List (String × JVal)) (k : String) (v : JVal),
      (k, v) ∈ l → (l.map Prod.fst).Nodup →
      assocGet (l.foldl (mergeField id) acc) k =
        some (if k == "zones" && id == "dns.zone.manager" then
          mergeZones (assocGet acc "zones") v else v) := by
  intro l
  induction l with
  | nil => intro acc k v h; cases h
  | cons p l' ih =>
    intro acc k v hmem hnd
    simp only [List.map_cons, List.nodup_cons] at hnd
    rcases List.mem_cons.mp hmem with heq | hmem'
    · obtain rfl : p = (k, v) := heq.symm
      rw [List.foldl_cons, foldMerge_not_mem id l' _ k (by simpa using hnd.1)]
      unfold mergeField
      by_cases hz : (k == "zones" && id == "dns.zone.manager") = true
      · have hk : k = "zones" := by
          have := (Bool.and_eq_true _ _).mp hz
          simpa [beq_iff_eq] using this.1
        subst hk
        simp only [hz, if_pos rfl, if_true]
        exact assocGet_set_self _ _ _
      · simp only [hz]
        rw [if_neg (by simpa using hz), if_neg (by simpa using hz)]
        exact assocGet_set_self _ _ _
    · have hkne : p.1 ≠ k := by
        intro h
        exact hnd.1 (h ▸ (List.mem_map.mpr ⟨(k, v), hmem', rfl⟩))
      rw [List.foldl_cons, ih _ k v hmem' hnd.2]
      congr 1
      by_cases hz : (k == "zones" && id == "dns.zone.manager") = true
      · have hk : k = "zones" := by
          have := (Bool.and_eq_true _ _).mp hz
          simpa [beq_iff_eq] using this.1
        rw [if_pos hz, if_pos hz,
          mergeField_set_key id acc p "zones" (by rw [← hk]; exact fun h => hkne h.symm)]
      · rw [if_neg hz, if_neg hz]

/-- The merge pass at a node whose handler has an override object:
every override key receives its override value (with the `zones`
exception merging into the node's previous `zones` value), and every
other key keeps the node's value. -/
theorem mergeStep_spec (O : Overrides) (fs : List (String × JVal)) (id : String)
    (ov : List (String × JVal))
    (hh : assocGet fs "handler" = some (.jstr id))
    (ho : assocGet O id = some (.jobj ov))
    (hnd : (ov.map Prod.fst).Nodup) :
    (∀ k v, (k, v) ∈ ov →
      assocGet (mergeStep O fs) k =
        some (if k == "zones" && id == "dns.zone.manager" then
          mergeZones (assocGet fs "zones") v else v)) ∧
    (∀ k, k ∉ ov.map Prod.fst → assocGet (mergeStep O fs) k = assocGet fs k) := by
  have hms : mergeStep O fs = ov.foldl (mergeField id) fs := by
    unfold mergeStep
    rw [hh]
    dsimp only
    rw [ho]
  constructor
  · intro k v hmem
    rw [hms]
    exact foldMerge_mem id ov fs k v hmem hnd
  · intro k hk
    rw [hms]
    exact foldMerge_not_mem id ov fs k hk

/-- A node whose handler is absent, non-string, or not an override key
is left unmerged. -/
theorem mergeStep_no_match (O : Overrides) (fs : List (String × JVal))
    (h : match assocGet fs "handler" with
         | some (.jstr id) => assocGet O id = none ∨ ∀ ov, assocGet O id ≠ some (.jobj ov)
         | some _ => True
         | none => True) :
    mergeStep O fs = fs := by
  unfold mergeStep
  cases hh : assocGet fs "handler" with
  | none => rfl
  | some v =>
    cases v with
    | jstr id =>
      rw [hh] at h
      dsimp only at h
      dsimp only
      cases ho : assocGet O id with
      | none => rfl
      | some w =>
        cases w with
        | jobj ov =>
          rcases h with h | h
          · rw [ho] at h; cases h
          · exact absurd ho (h ov)
        | jnull => rfl
        | jbool b => rfl
        | jnum n => rfl
        | jstr s => rfl
        | jarr xs => rfl
    | jnull => rfl
    | jbool b => rfl
    | jnum n => rfl
    | jarr xs => rfl
    | jobj gs => rfl

/-! ### C1: walker lemmas -/

theorem walkFields_spec :
    ∀ (fuel : Nat) (O : Overrides) (gs gs' : List (String × JVal)),
      walkFields fuel O gs = some gs' →
      List.Forall₂ (fun p q : String × JVal =>
        p.1 = q.1 ∧ ∃ f, walkChild f O p.2 = some q.2) gs gs' := by
  intro fuel
  induction fuel with
  | zero => intro O gs gs' h; exact Option.noConfusion h
  | succ fuel ih =>
    intro O gs gs' h
    cases gs with
    | nil =>
      obtain rfl : ([] : List (String × JVal)) = gs' := by injection h
      exact List.Forall₂.nil
    | cons p rest =>
      obtain ⟨k, v⟩ := p
      have heq : walkFields (fuel + 1) O ((k, v) :: rest) =
          match walkChild fuel O v with
          | none => none
          | some v' =>
            match walkFields fuel O rest with
            | none => none
            | some rest' => some ((k, v') :: rest') := rfl
      rw [heq] at h
      cases hv : walkChild fuel O v with
      | none => rw [hv] at h; simp at h
      | some v' =>
        rw [hv] at h
        dsimp only at h
        cases hr : walkFields fuel O rest with
        | none => rw [hr] at h; simp at h
        | some rest' =>
          rw [hr] at h
          dsimp only at h
          obtain rfl : (k, v') :: rest' = gs' := by injection h
          exact List.Forall₂.cons ⟨rfl, fuel, hv⟩ (ih O rest rest' hr)

theorem forall2_assocGet (O : Overrides) :
    ∀ (gs gs' : List (String × JVal)),
      List.Forall₂ (fun p q : String × JVal =>
        p.1 = q.1 ∧ ∃ f, walkChild f O p.2 = some q.2) gs gs' →
      ∀ k, (assocGet gs k = none → assocGet gs' k = none) ∧
        (∀ v, assocGet gs k = some v →
          ∃ w, assocGet gs' k = some w ∧ ∃ f, walkChild f O v = some w) := by
  intro gs gs' h
  induction h with
  | nil =>
    intro k
    exact ⟨fun _ => rfl, fun v hv => Option.noConfusion hv⟩
  | @cons p q l₁ l₂ hpq hrest ih =>
    intro k
    obtain ⟨a, b⟩ := p
    obtain ⟨c, d⟩ := q
    obtain ⟨hk, f, hw⟩ := hpq
    dsimp only at hk hw
    subst hk
    constructor
    · intro hnone
      rw [assocGet_cons] at hnone
      rw [assocGet_cons]
      by_cases hak : (a == k) = true
      · rw [if_pos hak] at hnone; cases hnone
      · rw [if_neg hak] at hnone
        rw [if_neg hak]
        exact (ih k).1 hnone
    · intro v hv
      rw [assocGet_cons] at hv
      rw [assocGet_cons]
      by_cases hak : (a == k) = true
      · rw [if_pos hak] at hv
        obtain rfl : b = v := by injection hv
        rw [if_pos hak]
        exact ⟨d, rfl, f, hw⟩
      · rw [if_neg hak] at hv
        rw [if_neg hak]
        exact (ih k).2 v hv

theorem untouched_id (O : Overrides) :
    ∀ fuel : Nat,
      (∀ fs fs', applyCfg fuel O fs = some fs' →
        untouchedV O (.jobj fs) = true → fs' = fs) ∧
      (∀ gs gs', walkFields fuel O gs = some gs' →
        untouchedF O gs = true → gs' = gs) ∧
      (∀ v v', walkChild fuel O v = some v' →
        untouchedV O v = true → v' = v) ∧
      (∀ xs xs', applySlice fuel O xs = some xs' →
        untouchedS O xs = true → xs' = xs) := by
  intro fuel
  induction fuel with
  | zero =>
    refine ⟨?_, ?_, ?_, ?_⟩ <;> (intro a b h _; exact Option.noConfusion h)
  | succ fuel ih =>
    obtain ⟨ihC, ihF, ihV, ihS⟩ := ih
    refine ⟨?_, ?_, ?_, ?_⟩
    · intro fs fs' h hu
      have hu' := hu
      simp only [untouchedV, Bool.and_eq_true] at hu'
      obtain ⟨h1, h2⟩ := hu'
      have hms : mergeStep O fs = fs := by
        apply mergeStep_no_match
        cases hh : assocGet fs "handler" with
        | none => trivial
        | some w =>
          cases w with
          | jstr id =>
            rw [hh] at h1
            dsimp only at h1
            exact Or.inl (Option.isNone_iff_eq_none.mp h1)
          | jnull => trivial
          | jbool b => trivial
          | jnum n => trivial
          | jarr xs => trivial
          | jobj gs => trivial
      have heq : applyCfg (fuel + 1) O fs = walkFields fuel O (mergeStep O fs) := rfl
      rw [heq, hms] at h
      exact ihF fs fs' h h2
    · intro gs gs' h hu
      cases gs with
      | nil =>
        obtain rfl : ([] : List (String × JVal)) = gs' := by injection h
        rfl
      | cons p rest =>
        obtain ⟨k, v⟩ := p
        simp only [untouchedF, Bool.and_eq_true] at hu
        obtain ⟨hv1, hv2⟩ := hu
        have heq : walkFields (fuel + 1) O ((k, v) :: rest) =
            match walkChild fuel O v with
            | none => none
            | some v' =>
              match walkFields fuel O rest with
              | none => none
              | some rest' => some ((k, v') :: rest') := rfl
        rw [heq] at h
        cases hvw : walkChild fuel O v with
        | none => rw [hvw] at h; simp at h
        | some v' =>
          rw [hvw] at h
          dsimp only at h
          cases hr : walkFields fuel O rest with
          | none => rw [hr] at h; simp at h
          | some rest' =>
            rw [hr] at h
            dsimp only at h
            obtain rfl : (k, v') :: rest' = gs' := by injection h
            rw [ihV v v' hvw hv1, ihF rest rest' hr hv2]
    · intro v v' h hu
      cases v with
      | jobj fs =>
        have heq : walkChild (fuel + 1) O (.jobj fs) =
            (applyCfg fuel O fs).map .jobj := rfl
        rw [heq] at h
        obtain ⟨fs2, hfs2, rfl⟩ := Option.map_eq_some'.mp h
        rw [ihC fs fs2 hfs2 hu]
      | jarr xs =>
        have heq : walkChild (fuel + 1) O (.jarr xs) =
            (applySlice fuel O xs).map .jarr := rfl
        rw [heq] at h
        obtain ⟨xs2, hxs2, rfl⟩ := Option.map_eq_some'.mp h
        have hu' : untouchedS O xs = true := by
          simpa [untouchedV] using hu
        rw [ihS xs xs2 hxs2 hu']
      | jnull => exact (Option.some.inj h).symm
      | jbool b => exact (Option.some.inj h).symm
      | jnum n => exact (Option.some.inj h).symm
      | jstr s => exact (Option.some.inj h).symm
    · intro xs xs' h hu
      cases xs with
      | nil =>
        obtain rfl : ([] : List JVal) = xs' := by injection h
        rfl
      | cons x rest =>
        simp only [untouchedS, Bool.and_eq_true] at hu
        obtain ⟨hx, hrest⟩ := hu
        cases x with
        | jobj fs =>
          have heq : applySlice (fuel + 1) O (.jobj fs :: rest) =
              match applyCfg fuel O fs with
              | none => none
              | some fs' =>
                match applySlice fuel O rest with
                | none => none
                | some xs' => some (.jobj fs' :: xs') := rfl
          rw [heq] at h
          cases hc : applyCfg fuel O fs with
          | none => rw [hc] at h; simp at h
          | some fs2 =>
            rw [hc] at h
            dsimp only at h
            cases hr : applySlice fuel O rest with
            | none => rw [hr] at h; simp at h
            | some rest2 =>
              rw [hr] at h
              dsimp only at h
              obtain rfl : JVal.jobj fs2 :: rest2 = xs' := by injection h
              rw [ihC fs fs2 hc hx, ihS rest rest2 hr hrest]
        | jnull =>
          have heq : applySlice (fuel + 1) O (.jnull :: rest) =
              match applySlice fuel O rest with
              | none => none
              | some xs' => some (.jnull :: xs') := rfl
          rw [heq] at h
          cases hr : applySlice fuel O rest with
          | none => rw [hr] at h; simp at h
          | some rest2 =>
            rw [hr] at h
            dsimp only at h
            obtain rfl : JVal.jnull :: rest2 = xs' := by injection h
            rw [ihS rest rest2 hr hrest]
        | jbool b =>
          have heq : applySlice (fuel + 1) O (.jbool b :: rest) =
              match applySlice fuel O rest with
              | none => none
              | some xs' => some (.jbool b :: xs') := rfl
          rw [heq] at h
          cases hr : applySlice fuel O rest with
          | none => rw [hr] at h; simp at h
          | some rest2 =>
            rw [hr] at h
            dsimp only at h
            obtain rfl : JVal.jbool b :: rest2 = xs' := by injection h
            rw [ihS rest rest2 hr hrest]
        | jnum n =>
          have heq : applySlice (fuel + 1) O (.jnum n :: rest) =
              match applySlice fuel O rest with
              | none => none
              | some xs' => some (.jnum n :: xs') := rfl
          rw [heq] at h
          cases hr : applySlice fuel O rest with
          | none => rw [hr] at h; simp at h
          | some rest2 =>
            rw [hr] at h
            dsimp only at h
            obtain rfl : JVal.jnum n :: rest2 = xs' := by injection h
            rw [ihS rest rest2 hr hrest]
        | jstr s =>
          have heq : applySlice (fuel + 1) O (.jstr s :: rest) =
              match applySlice fuel O rest with
              | none => none
              | some xs' => some (.jstr s :: xs') := rfl
          rw [heq] at h
          cases hr : applySlice fuel O rest with
          | none => rw [hr] at h; simp at h
          | some rest2 =>
            rw [hr] at h
            dsimp only at h
            obtain rfl : JVal.jstr s :: rest2 = xs' := by injection h
            rw [ihS rest rest2 hr hrest]
        | jarr ys =>
          have heq : applySlice (fuel + 1) O (.jarr ys :: rest) =
              match applySlice fuel O rest with
              | none => none
              | some xs' => some (.jarr ys :: xs') := rfl
          rw [heq] at h
          cases hr : applySlice fuel O rest with
          | none => rw [hr] at h; simp at h
          | some rest2 =>
            rw [hr] at h
            dsimp only at h
            obtain rfl : JVal.jarr ys :: rest2 = xs' := by injection h
            rw [ihS rest rest2 hr hrest]

/-! ### C1: zone-union lemmas -/

theorem zoneFold_cons (m : List (String × JVal)) (z : JVal) (rest : List JVal) :
    zoneFold m (z :: rest) = zoneFold (zoneStep m z) rest := by
  cases z with
  | jobj zf =>
    have h1 : zoneFold m (JVal.jobj zf :: rest) =
        zoneFold (match assocGet zf "zone" with
                  | some (.jstr name) => assocSet m name (.jobj zf)
                  | _ => m) rest := rfl
    rw [h1]
    unfold zoneStep zoneNameOf
    dsimp only
    cases hz : assocGet zf "zone" with
    | none => rfl
    | some w => cases w <;> rfl
  | jnull => rfl
  | jbool b => rfl
  | jnum n => rfl
  | jstr s => rfl
  | jarr xs => rfl

theorem mem_assocSet {α : Type} (m : List (String × α)) (k : String) (v : α)
    (p : String × α) (hp : p ∈ assocSet m k v) : p = (k, v) ∨ p ∈ m := by
  induction m with
  | nil => simpa [assocSet] using hp
  | cons q rest ih =>
    obtain ⟨a, b⟩ := q
    simp only [assocSet] at hp
    split at hp
    · rcases List.mem_cons.mp hp with rfl | hmem
      · exact Or.inl rfl
      · exact Or.inr (List.mem_cons_of_mem _ hmem)
    · rcases List.mem_cons.mp hp with rfl | hmem
      · exact Or.inr (List.mem_cons_self _ _)
      · rcases ih hmem with h | h
        · exact Or.inl h
        · exact Or.inr (List.mem_cons_of_mem _ h)

theorem assocSet_keys {α : Type} (m : List (String × α)) (k : String) (v : α) :
    ∀ k', k' ∈ (assocSet m k v).map Prod.fst ↔ k' = k ∨ k' ∈ m.map Prod.fst := by
  intro k'
  induction m with
  | nil => simp [assocSet]
  | cons q rest ih =>
    obtain ⟨a, b⟩ := q
    simp only [assocSet]
    split
    · next h =>
      have ha : a = k := by simpa [beq_iff_eq] using h
      subst ha
      simp only [List.map_cons, List.mem_cons]
      constructor
      · rintro (rfl | h)
        · exact Or.inl rfl
        · exact Or.inr (Or.inr h)
      · rintro (rfl | rfl | h)
        · exact Or.inl rfl
        · exact Or.inl rfl
        · exact Or.inr h
    · simp only [List.map_cons, List.mem_cons, ih]
      tauto

theorem assocSet_keys_nodup {α : Type} (m : List (String × α)) (k : String) (v : α)
    (hm : (m.map Prod.fst).Nodup) : ((assocSet m k v).map Prod.fst).Nodup := by
  induction m with
  | nil => simp [assocSet]
  | cons q rest ih =>
    obtain ⟨a, b⟩ := q
    simp only [List.map_cons, List.nodup_cons] at hm
    simp only [assocSet]
    split
    · next h =>
      have ha : a = k := by simpa [beq_iff_eq] using h
      subst ha
      simp only [List.map_cons, List.nodup_cons]
      exact hm
    · next h =>
      have ha : a ≠ k := by simpa [beq_iff_eq] using h
      simp only [List.map_cons, List.nodup_cons]
      refine ⟨?_, ih hm.2⟩
      intro hmem
      rcases (assocSet_keys rest k v a).mp hmem with rfl | hmem'
      · exact ha rfl
      · exact hm.1 hmem'

theorem zoneFold_names :
    ∀ (l : List JVal) (m : List (String × JVal)),
      (∀ p ∈ m, zoneNameOf p.2 = some p.1) →
      ∀ p ∈ zoneFold m l, zoneNameOf p.2 = some p.1 := by
  intro l
  induction l with
  | nil => intro m hm; exact hm
  | cons z rest ih =>
    intro m hm
    rw [zoneFold_cons]
    apply ih
    intro p hp
    unfold zoneStep at hp
    cases hz : zoneNameOf z with
    | none => rw [hz] at hp; exact hm p hp
    | some nm =>
      rw [hz] at hp
      dsimp only at hp
      rcases mem_assocSet _ _ _ _ hp with rfl | hmem
      · exact hz
      · exact hm p hmem

theorem zoneFold_keys_nodup :
    ∀ (l : List JVal) (m : List (String × JVal)),
      (m.map Prod.fst).Nodup → ((zoneFold m l).map Prod.fst).Nodup := by
  intro l
  induction l with
  | nil => intro m hm; exact hm
  | cons z rest ih =>
    intro m hm
    rw [zoneFold_cons]
    apply ih
    unfold zoneStep
    cases hz : zoneNameOf z with
    | none => exact hm
    | some nm => exact assocSet_keys_nodup m nm z hm

theorem mem_of_assocGet {α : Type} (m : List (String × α)) (k : String) (v : α)
    (h : assocGet m k = some v) : (k, v) ∈ m := by
  induction m with
  | nil => cases h
  | cons q rest ih =>
    obtain ⟨a, b⟩ := q
    rw [assocGet_cons] at h
    by_cases hak : (a == k) = true
    · rw [if_pos hak] at h
      obtain rfl : b = v := by injection h
      obtain rfl : a = k := by simpa [beq_iff_eq] using hak
      exact List.mem_cons_self _ _
    · rw [if_neg hak] at h
      exact List.mem_cons_of_mem _ (ih h)

theorem assocGet_of_mem_nodup {α : Type} (m : List (String × α)) (k : String) (v : α)
    (hmem : (k, v) ∈ m) (hnd : (m.map Prod.fst).Nodup) : assocGet m k = some v := by
  induction m with
  | nil => cases hmem
  | cons q rest ih =>
    obtain ⟨a, b⟩ := q
    simp only [List.map_cons, List.nodup_cons] at hnd
    rcases List.mem_cons.mp hmem with heq | hmem'
    · obtain ⟨h1, h2⟩ := Prod.ext_iff.mp heq
      dsimp only at h1 h2
      subst h1
      subst h2
      rw [assocGet_cons, if_pos (by simp)]
    · have hak : a ≠ k := by
        intro h
        subst h
        exact hnd.1 (List.mem_map.mpr ⟨(a, v), hmem', rfl⟩)
      rw [assocGet_cons, if_neg (by simpa [beq_iff_eq] using hak)]
      exact ih hmem' hnd.2

theorem zoneFold_get :
    ∀ (l : List JVal) (m : List (String × JVal)) (n : String),
      assocGet (zoneFold m l) n =
        match assocGet (zoneFold [] l) n with
        | some z => some z
        | none => assocGet m n := by
  intro l
  induction l with
  | nil => intro m n; rfl
  | cons z rest ih =>
    intro m n
    rw [zoneFold_cons, zoneFold_cons, ih (zoneStep m z) n, ih (zoneStep [] z) n]
    cases hr : assocGet (zoneFold [] rest) n with
    | some z0 => rfl
    | none =>
      dsimp only
      unfold zoneStep
      cases hz : zoneNameOf z with
      | none => rfl
      | some nm =>
        dsimp only
        by_cases hnm : (nm == n) = true
        · have : nm = n := by simpa [beq_iff_eq] using hnm
          subst this
          simp only [assocGet_set_self]
        · have hne : n ≠ nm := by
            simp only [beq_iff_eq] at hnm
            exact fun h => hnm h.symm
          simp only [assocGet_set_other _ _ _ _ hne]
          rfl

theorem zoneFold_isSome_iff :
    ∀ (l : List JVal) (n : String),
      (assocGet (zoneFold [] l) n).isSome = true ↔
        ∃ z ∈ l, zoneNameOf z = some n := by
  intro l
  induction l with
  | nil => intro n; simp [zoneFold, assocGet]
  | cons z rest ih =>
    intro n
    rw [zoneFold_cons, zoneFold_get rest (zoneStep [] z) n]
    cases hr : assocGet (zoneFold [] rest) n with
    | some z0 =>
      simp only [Option.isSome_some, true_iff]
      have : ∃ w ∈ rest, zoneNameOf w = some n := ih n |>.mp (by rw [hr]; rfl)
      obtain ⟨w, hw, hwn⟩ := this
      exact ⟨w, List.mem_cons_of_mem _ hw, hwn⟩
    | none =>
      dsimp only
      have hrest : ¬∃ w ∈ rest, zoneNameOf w = some n := by
        intro hc
        have := (ih n).mpr hc
        rw [hr] at this
        cases this
      unfold zoneStep
      cases hz : zoneNameOf z with
      | none =>
        dsimp only
        constructor
        · intro hc
          have : assocGet ([] : List (String × JVal)) n = none := rfl
          rw [this] at hc
          cases hc
        · intro hc
          obtain ⟨w, hw, hwn⟩ := hc
          rcases List.mem_cons.mp hw with rfl | hw'
          · rw [hz] at hwn; cases hwn
          · exact absurd ⟨w, hw', hwn⟩ hrest
      | some nm =>
        dsimp only
        by_cases hnm : (nm == n) = true
        · have heqn : nm = n := by simpa [beq_iff_eq] using hnm
          subst heqn
          constructor
          · intro _
            exact ⟨z, List.mem_cons_self _ _, hz⟩
          · intro _
            rw [show assocSet ([] : List (String × JVal)) nm z = [(nm, z)] from rfl,
              assocGet_cons, if_pos (by simp)]
            rfl
        · rw [show assocSet ([] : List (String × JVal)) nm z = [(nm, z)] from rfl,
            assocGet_cons, if_neg hnm]
          constructor
          · intro hc
            have : assocGet ([] : List (String × JVal)) n = none := rfl
            rw [this] at hc
            cases hc
          · intro hc
            obtain ⟨w, hw, hwn⟩ := hc
            rcases List.mem_cons.mp hw with rfl | hw'
            · rw [hz] at hwn
              obtain rfl : nm = n := by injection hwn
              simp at hnm
            · exact absurd ⟨w, hw', hwn⟩ hrest

/-! ### C1: the selective-override theorem -/

/-- C1 (amended): after applying the selective overrides,
(i) every subtree containing no object node whose `handler` is an
override key is preserved exactly;
(ii) at every object node whose string `handler` id is an override key
(with the override decoding to an object with distinct keys), every
override key `k` other than the `zones` exception gets in the result the
override's value *as further processed by the walk* — identical to
`O[id][k]` whenever that value contains no overridden handler — while
every key not in the override keeps the node's previous value (again
walk-processed, identical when untouched), and the `zones` key of a
`dns.zone.manager` node gets the walk-processed union-by-zone-name of the
node's previous `zones` value with the override's;
(iii) union-by-zone-name means: the names of the merged array are
exactly the names of the base array united with the override's, and for
a name the override carries, the merged entry is the override's (its
last entry with that name). -/
theorem applyOverrides_selective :
    (∀ (fuel : Nat) (O : Overrides) (v v' : JVal),
      walkChild fuel O v = some v' → untouchedV O v = true → v' = v) ∧
    (∀ (fuel : Nat) (O : Overrides) (fs fs' : List (String × JVal))
        (id : String) (ov : List (String × JVal)),
      applyCfg fuel O fs = some fs' →
      assocGet fs "handler" = some (.jstr id) →
      assocGet O id = some (.jobj ov) →
      (ov.map Prod.fst).Nodup →
      (∀ k v, (k, v) ∈ ov → ¬(k = "zones" ∧ id = "dns.zone.manager") →
        ∃ w, assocGet fs' k = some w ∧ (∃ f, walkChild f O v = some w) ∧
          (untouchedV O v = true → w = v)) ∧
      (∀ k, k ∉ ov.map Prod.fst →
        (assocGet fs k = none → assocGet fs' k = none) ∧
        (∀ v, assocGet fs k = some v →
          ∃ w, assocGet fs' k = some w ∧ (∃ f, walkChild f O v = some w) ∧
            (untouchedV O v = true → w = v))) ∧
      (∀ v, ("zones", v) ∈ ov → id = "dns.zone.manager" →
        ∃ w, assocGet fs' "zones" = some w ∧
          ∃ f, walkChild f O (mergeZones (assocGet fs "zones") v) = some w)) ∧
    (∀ (bs os : List JVal) (n : String),
      ((∃ z ∈ zoneUnion bs os, zoneNameOf z = some n) ↔
        (∃ z ∈ bs, zoneNameOf z = some n) ∨ (∃ z ∈ os, zoneNameOf z = some n)) ∧
      (∀ z, assocGet (zoneFold [] os) n = some z →
        z ∈ zoneUnion bs os ∧
          ∀ z' ∈ zoneUnion bs os, zoneNameOf z' = some n → z' = z)) := by
  have huntouched : ∀ (fuel : Nat) (O : Overrides) (v v' : JVal),
      walkChild fuel O v = some v' → untouchedV O v = true → v' = v :=
    fun fuel O v v' h hu => (untouched_id O fuel).2.2.1 v v' h hu
  refine ⟨huntouched, ?_, ?_⟩
  · intro fuel O fs fs' id ov h hh ho hnd
    cases fuel with
    | zero => exact Option.noConfusion h
    | succ fuel =>
      have heq : applyCfg (fuel + 1) O fs = walkFields fuel O (mergeStep O fs) := rfl
      rw [heq] at h
      have hF2 := walkFields_spec fuel O (mergeStep O fs) fs' h
      have htrans := forall2_assocGet O (mergeStep O fs) fs' hF2
      have hms := mergeStep_spec O fs id ov hh ho hnd
      refine ⟨?_, ?_, ?_⟩
      · intro k v hmem hnz
        have hzf : (k == "zones" && id == "dns.zone.manager") = false := by
          rw [Bool.and_eq_false_iff]
          by_cases hk : k = "zones"
          · right
            simp only [beq_eq_false_iff_ne, ne_eq]
            intro hid
            exact hnz ⟨hk, hid⟩
          · left
            simpa [beq_eq_false_iff_ne] using hk
        have hget : assocGet (mergeStep O fs) k = some v := by
          rw [hms.1 k v hmem, hzf]
          rfl
        obtain ⟨w, hw, f, hwf⟩ := (htrans k).2 v hget
        exact ⟨w, hw, ⟨f, hwf⟩, fun hu => huntouched f O v w hwf hu⟩
      · intro k hk
        constructor
        · intro hnone
          exact (htrans k).1 (by rw [hms.2 k hk]; exact hnone)
        · intro v hv
          obtain ⟨w, hw, f, hwf⟩ := (htrans k).2 v (by rw [hms.2 k hk]; exact hv)
          exact ⟨w, hw, ⟨f, hwf⟩, fun hu => huntouched f O v w hwf hu⟩
      · intro v hmem hid
        subst hid
        have hget : assocGet (mergeStep O fs) "zones" =
            some (mergeZones (assocGet fs "zones") v) := by
          rw [hms.1 "zones" v hmem]
          rfl
        obtain ⟨w, hw, f, hwf⟩ := (htrans "zones").2 _ hget
        exact ⟨w, hw, f, hwf⟩
  · intro bs os n
    have hnames : ∀ p ∈ zoneFold (zoneFold [] bs) os, zoneNameOf p.2 = some p.1 := by
      apply zoneFold_names
      apply zoneFold_names
      intro p hp
      cases hp
    have hnodup : ((zoneFold (zoneFold [] bs) os).map Prod.fst).Nodup := by
      apply zoneFold_keys_nodup
      apply zoneFold_keys_nodup
      simp
    have hgetF : assocGet (zoneFold (zoneFold [] bs) os) n =
        match assocGet (zoneFold [] os) n with
        | some z => some z
        | none => assocGet (zoneFold [] bs) n := zoneFold_get os (zoneFold [] bs) n
    constructor
    · constructor
      · rintro ⟨z, hz, hzn⟩
        obtain ⟨p, hp, hps⟩ := List.mem_map.mp hz
        have hpn : p.1 = n := by
          have h2 := hnames p hp
          rw [hps, hzn] at h2
          exact (Option.some.inj h2).symm
        have hpget : assocGet (zoneFold (zoneFold [] bs) os) n = some z := by
          rw [← hpn, ← hps]
          exact assocGet_of_mem_nodup _ _ _ (by simpa using hp) hnodup
        rw [hgetF] at hpget
        cases hos : assocGet (zoneFold [] os) n with
        | some w =>
          right
          exact (zoneFold_isSome_iff os n).mp (by rw [hos]; rfl)
        | none =>
          left
          rw [hos] at hpget
          dsimp only at hpget
          exact (zoneFold_isSome_iff bs n).mp (by rw [hpget]; rfl)
      · intro hor
        have hsome : (assocGet (zoneFold (zoneFold [] bs) os) n).isSome = true := by
          rw [hgetF]
          cases hos : assocGet (zoneFold [] os) n with
          | some w => rfl
          | none =>
            dsimp only
            rcases hor with hbs | hos'
            · exact (zoneFold_isSome_iff bs n).mpr hbs
            · have := (zoneFold_isSome_iff os n).mpr hos'
              rw [hos] at this
              cases this
        obtain ⟨z, hz⟩ := Option.isSome_iff_exists.mp hsome
        have hmem := mem_of_assocGet _ _ _ hz
        refine ⟨z, List.mem_map.mpr ⟨(n, z), hmem, rfl⟩, ?_⟩
        exact hnames (n, z) hmem
    · intro z hos
      have hzF : assocGet (zoneFold (zoneFold [] bs) os) n = some z := by
        rw [hgetF, hos]
      have hmem := mem_of_assocGet _ _ _ hzF
      refine ⟨List.mem_map.mpr ⟨(n, z), hmem, rfl⟩, ?_⟩
      intro z' hz' hz'n
      obtain ⟨p, hp, hps⟩ := List.mem_map.mp hz'
      have hpn : p.1 = n := by
        have h2 := hnames p hp
        rw [hps, hz'n] at h2
        exact (Option.some.inj h2).symm
      have : assocGet (zoneFold (zoneFold [] bs) os) n = some z' := by
        rw [← hpn, ← hps]
        exact assocGet_of_mem_nodup _ _ _ (by simpa using hp) hnodup
      rw [hzF] at this
      exact (Option.some.inj this).symm

/-- Witness for C1's amended theorem: override of handler `"a"` sets key
`"x"` to `2` while key `"y"` keeps its base value `5`. -/
theorem applyOverrides_selective_witness :
    (∃ w, assocGet [("handler", JVal.jstr "a"), ("y", JVal.jnum 5), ("x", JVal.jnum 2)]
        "x" = some w ∧
      (∃ f, walkChild f [("a", JVal.jobj [("x", JVal.jnum 2)])] (JVal.jnum 2) = some w) ∧
      (untouchedV [("a", JVal.jobj [("x", JVal.jnum 2)])] (JVal.jnum 2) = true →
        w = JVal.jnum 2)) :=
  ((applyOverrides_selective.2.1 5 [("a", JVal.jobj [("x", JVal.jnum 2)])]
      [("handler", JVal.jstr "a"), ("y", JVal.jnum 5)]
      [("handler", JVal.jstr "a"), ("y", JVal.jnum 5), ("x", JVal.jnum 2)]
      "a" [("x", JVal.jnum 2)] rfl rfl rfl (by simp)).1
    "x" (JVal.jnum 2) (by simp) (by simp))

/-- Counterexample to C1 as stated: the walk recurses into
override-supplied values, so with base `{handler: "a"}` and overrides
`{a: {x: {handler: "b"}}, b: {y: 1}}`, the resulting node's value at
`"x"` is `{handler: "b", y: 1}`, not the override's literal value
`O["a"]["x"] = {handler: "b"}`. -/
theorem applyOverrides_value_rewritten :
    applyCfg 10 [("a", .jobj [("x", .jobj [("handler", .jstr "b")])]),
                 ("b", .jobj [("y", .jnum 1)])] [("handler", .jstr "a")] =
      some [("handler", .jstr "a"),
            ("x", .jobj [("handler", .jstr "b"), ("y", .jnum 1)])] ∧
    assocGet [("handler", JVal.jstr "a"),
        ("x", JVal.jobj [("handler", JVal.jstr "b"), ("y", JVal.jnum 1)])] "x" ≠
      some (.jobj [("handler", .jstr "b")]) :=
  ⟨rfl, by simp [assocGet]⟩

/-! ### C9: heap frame lemmas -/

theorem heapPres_refl (h : Heap) : HeapPres h h :=
  ⟨le_refl _, fun _ _ => rfl⟩

theorem heapPres_trans {h1 h2 h3 : Heap} (p : HeapPres h1 h2) (q : HeapPres h2 h3) :
    HeapPres h1 h3 :=
  ⟨le_trans p.1 q.1, fun b hb => (q.2 b (lt_of_lt_of_le hb p.1)).trans (p.2 b hb)⟩

theorem heapPresExc_refl (r : Nat) (h : Heap) : HeapPresExc r h h :=
  ⟨le_refl _, fun _ _ _ => rfl⟩

theorem heapPresExc_trans {r : Nat} {h1 h2 h3 : Heap} (p : HeapPresExc r h1 h2)
    (q : HeapPresExc r h2 h3) : HeapPresExc r h1 h3 :=
  ⟨le_trans p.1 q.1,
   fun b hbr hb => (q.2 b hbr (lt_of_lt_of_le hb p.1)).trans (p.2 b hbr hb)⟩

theorem heapPres_toExc {h h' : Heap} (r : Nat) (p : HeapPres h h') :
    HeapPresExc r h h' :=
  ⟨p.1, fun b _ hb => p.2 b hb⟩

theorem heapGet_alloc (h : Heap) (node : HNode) (b : Nat) (hb : b < h.next) :
    ((h.alloc node).1).get b = h.get b := by
  have hne : (h.next == b) = false := by
    simp only [beq_eq_false_iff_ne, ne_eq]
    exact fun hc => absurd (hc ▸ hb) (lt_irrefl _)
  simp only [Heap.alloc, Heap.get, List.find?_cons, hne]

theorem heapPres_alloc (h : Heap) (node : HNode) : HeapPres h (h.alloc node).1 :=
  ⟨Nat.le_succ _, fun b hb => heapGet_alloc h node b hb⟩

theorem setNat_find_other (a : Nat) (n : HNode) (b : Nat) (hb : b ≠ a) :
    ∀ mem : List (Nat × HNode),
      (setNat mem a n).find? (fun p => p.1 == b) = mem.find? (fun p => p.1 == b) := by
  intro mem
  induction mem with
  | nil =>
    simp only [setNat, List.find?_cons, List.find?_nil]
    have : (a == b) = false := by
      simp only [beq_eq_false_iff_ne, ne_eq]
      exact fun hc => hb hc.symm
    simp [this]
  | cons q rest ih =>
    obtain ⟨a', n'⟩ := q
    simp only [setNat]
    split
    · next heq =>
      have ha : a' = a := by simpa using heq
      subst ha
      have h1 : (a' == b) = false := by
        simp only [beq_eq_false_iff_ne, ne_eq]
        exact fun hc => hb hc.symm
      simp [List.find?_cons, h1]
    · simp only [List.find?_cons]
      cases hq : (a' == b) with
      | true => rfl
      | false => exact ih

theorem heapGet_store_other (h : Heap) (a : Nat) (n : HNode) (b : Nat) (hb : b ≠ a) :
    (h.store a n).get b = h.get b := by
  simp only [Heap.store, Heap.get]
  rw [setNat_find_other a n b hb h.mem]

theorem setFieldH_get_other (h : Heap) (a : Nat) (k : String) (v : HVal) (b : Nat)
    (hb : b ≠ a) : (setFieldH h a k v).get b = h.get b := by
  unfold setFieldH
  cases hg : h.get a with
  | none => rfl
  | some node =>
    cases node with
    | hobj fs => exact heapGet_store_other h a _ b hb
    | harr xs => rfl

theorem setFieldH_next (h : Heap) (a : Nat) (k : String) (v : HVal) :
    (setFieldH h a k v).next = h.next := by
  unfold setFieldH
  cases hg : h.get a with
  | none => rfl
  | some node =>
    cases node with
    | hobj fs => rfl
    | harr xs => rfl

theorem heapPresExc_setFieldH (h : Heap) (a : Nat) (k : String) (v : HVal) :
    HeapPresExc a h (setFieldH h a k v) :=
  ⟨le_of_eq (setFieldH_next h a k v).symm,
   fun b hb _ => setFieldH_get_other h a k v b hb⟩

theorem mergeZonesH_pres (h : Heap) (b : Option HVal) (ovv : HVal) :
    HeapPres h (mergeZonesH h b ovv).1 := by
  unfold mergeZonesH
  cases b with
  | none => exact heapPres_refl h
  | some hv =>
    cases hv with
    | prim p => exact heapPres_refl h
    | ref ab =>
      dsimp only
      cases hab : h.get ab with
      | none => exact heapPres_refl h
      | some node =>
        cases node with
        | hobj fs => exact heapPres_refl h
        | harr bs =>
          dsimp only
          cases ovv with
          | prim p => exact heapPres_refl h
          | ref ao =>
            dsimp only
            cases hao : h.get ao with
            | none => exact heapPres_refl h
            | some node2 =>
              cases node2 with
              | hobj fs => exact heapPres_refl h
              | harr os =>
                dsimp only
                exact heapPres_alloc h _

theorem copyPres (fuel : Nat) :
    (∀ h v h' v', deepCopyValH fuel h v = some (h', v') → HeapPres h h') ∧
    (∀ h fs h' fs', copyFieldsH fuel h fs = some (h', fs') → HeapPres h h') ∧
    (∀ h xs h' xs', copyItemsH fuel h xs = some (h', xs') → HeapPres h h') := by
  induction fuel with
  | zero =>
    refine ⟨?_, ?_, ?_⟩ <;> (intro h v h' v' hc; exact Option.noConfusion hc)
  | succ fuel ih =>
    obtain ⟨ihV, ihF, ihI⟩ := ih
    refine ⟨?_, ?_, ?_⟩
    · intro h v h' v' hc
      cases v with
      | prim p =>
        obtain ⟨rfl, rfl⟩ := Prod.mk.inj (Option.some.inj hc)
        exact heapPres_refl h
      | ref a =>
        have heq : deepCopyValH (fuel + 1) h (.ref a) =
            match h.get a with
            | some (.hobj fs) =>
              match copyFieldsH fuel h fs with
              | none => none
              | some (h1, fs') =>
                let (h2, r) := h1.alloc (.hobj fs')
                some (h2, .ref r)
            | some (.harr xs) =>
              match copyItemsH fuel h xs with
              | none => none
              | some (h1, xs') =>
                let (h2, r) := h1.alloc (.harr xs')
                some (h2, .ref r)
            | none => none := rfl
        rw [heq] at hc
        cases hg : h.get a with
        | none => rw [hg] at hc; exact Option.noConfusion hc
        | some node =>
          rw [hg] at hc
          cases node with
          | hobj fs =>
            dsimp only at hc
            cases hcf : copyFieldsH fuel h fs with
            | none => rw [hcf] at hc; exact Option.noConfusion hc
            | some pr =>
              obtain ⟨h1, fs1⟩ := pr
              rw [hcf] at hc
              dsimp only [Heap.alloc] at hc
              obtain ⟨rfl, rfl⟩ := Prod.mk.inj (Option.some.inj hc)
              exact heapPres_trans (ihF h fs h1 fs1 hcf) (heapPres_alloc h1 _)
          | harr xs =>
            dsimp only at hc
            cases hci : copyItemsH fuel h xs with
            | none => rw [hci] at hc; exact Option.noConfusion hc
            | some pr =>
              obtain ⟨h1, xs1⟩ := pr
              rw [hci] at hc
              dsimp only [Heap.alloc] at hc
              obtain ⟨rfl, rfl⟩ := Prod.mk.inj (Option.some.inj hc)
              exact heapPres_trans (ihI h xs h1 xs1 hci) (heapPres_alloc h1 _)
    · intro h fs h' fs' hc
      cases fs with
      | nil =>
        obtain ⟨rfl, rfl⟩ := Prod.mk.inj (Option.some.inj hc)
        exact heapPres_refl h
      | cons p rest =>
        obtain ⟨k, v⟩ := p
        have heq : copyFieldsH (fuel + 1) h ((k, v) :: rest) =
            match deepCopyValH fuel h v with
            | none => none
            | some (h1, v') =>
              match copyFieldsH fuel h1 rest with
              | none => none
              | some (h2, rest') => some (h2, (k, v') :: rest') := rfl
        rw [heq] at hc
        cases hcv : deepCopyValH fuel h v with
        | none => rw [hcv] at hc; exact Option.noConfusion hc
        | some pr =>
          obtain ⟨h1, v1⟩ := pr
          rw [hcv] at hc
          dsimp only at hc
          cases hcr : copyFieldsH fuel h1 rest with
          | none => rw [hcr] at hc; exact Option.noConfusion hc
          | some pr2 =>
            obtain ⟨h2, rest1⟩ := pr2
            rw [hcr] at hc
            dsimp only at hc
            obtain ⟨rfl, rfl⟩ := Prod.mk.inj (Option.some.inj hc)
            exact heapPres_trans (ihV h v h1 v1 hcv) (ihF h1 rest h2 rest1 hcr)
    · intro h xs h' xs' hc
      cases xs with
      | nil =>
        obtain ⟨rfl, rfl⟩ := Prod.mk.inj (Option.some.inj hc)
        exact heapPres_refl h
      | cons x rest =>
        have heq : copyItemsH (fuel + 1) h (x :: rest) =
            match deepCopyValH fuel h x with
            | none => none
            | some (h1, x') =>
              match copyItemsH fuel h1 rest with
              | none => none
              | some (h2, xs') => some (h2, x' :: xs') := rfl
        rw [heq] at hc
        cases hcv : deepCopyValH fuel h x with
        | none => rw [hcv] at hc; exact Option.noConfusion hc
        | some pr =>
          obtain ⟨h1, x1⟩ := pr
          rw [hcv] at hc
          dsimp only at hc
          cases hcr : copyItemsH fuel h1 rest with
          | none => rw [hcr] at hc; exact Option.noConfusion hc
          | some pr2 =>
            obtain ⟨h2, rest1⟩ := pr2
            rw [hcr] at hc
            dsimp only at hc
            obtain ⟨rfl, rfl⟩ := Prod.mk.inj (Option.some.inj hc)
            exact heapPres_trans (ihV h x h1 x1 hcv) (ihI h1 rest h2 rest1 hcr)

theorem allocPres (fuel : Nat) :
    (∀ h v h' v', allocJValH fuel h v = some (h', v') → HeapPres h h') ∧
    (∀ h fs h' fs', allocFieldsH fuel h fs = some (h', fs') → HeapPres h h') ∧
    (∀ h xs h' xs', allocItemsH fuel h xs = some (h', xs') → HeapPres h h') := by
  induction fuel with
  | zero =>
    refine ⟨?_, ?_, ?_⟩ <;> (intro h v h' v' hc; exact Option.noConfusion hc)
  | succ fuel ih =>
    obtain ⟨ihV, ihF, ihI⟩ := ih
    refine ⟨?_, ?_, ?_⟩
    · intro h v h' v' hc
      cases v with
      | jnull =>
        obtain ⟨rfl, rfl⟩ := Prod.mk.inj (Option.some.inj hc)
        exact heapPres_refl h
      | jbool b =>
        obtain ⟨rfl, rfl⟩ := Prod.mk.inj (Option.some.inj hc)
        exact heapPres_refl h
      | jnum n =>
        obtain ⟨rfl, rfl⟩ := Prod.mk.inj (Option.some.inj hc)
        exact heapPres_refl h
      | jstr s =>
        obtain ⟨rfl, rfl⟩ := Prod.mk.inj (Option.some.inj hc)
        exact heapPres_refl h
      | jobj fs =>
        have heq : allocJValH (fuel + 1) h (.jobj fs) =
            match allocFieldsH fuel h fs with
            | none => none
            | some (h1, fs') =>
              let (h2, r) := h1.alloc (.hobj fs')
              some (h2, .ref r) := rfl
        rw [heq] at hc
        cases hcf : allocFieldsH fuel h fs with
        | none => rw [hcf] at hc; exact Option.noConfusion hc
        | some pr =>
          obtain ⟨h1, fs1⟩ := pr
          rw [hcf] at hc
          dsimp only [Heap.alloc] at hc
          obtain ⟨rfl, rfl⟩ := Prod.mk.inj (Option.some.inj hc)
          exact heapPres_trans (ihF h fs h1 fs1 hcf) (heapPres_alloc h1 _)
      | jarr xs =>
        have heq : allocJValH (fuel + 1) h (.jarr xs) =
            match allocItemsH fuel h xs with
            | none => none
            | some (h1, xs') =>
              let (h2, r) := h1.alloc (.harr xs')
              some (h2, .ref r) := rfl
        rw [heq] at hc
        cases hci : allocItemsH fuel h xs with
        | none => rw [hci] at hc; exact Option.noConfusion hc
        | some pr =>
          obtain ⟨h1, xs1⟩ := pr
          rw [hci] at hc
          dsimp only [Heap.alloc] at hc
          obtain ⟨rfl, rfl⟩ := Prod.mk.inj (Option.some.inj hc)
          exact heapPres_trans (ihI h xs h1 xs1 hci) (heapPres_alloc h1 _)
    · intro h fs h' fs' hc
      cases fs with
      | nil =>
        obtain ⟨rfl, rfl⟩ := Prod.mk.inj (Option.some.inj hc)
        exact heapPres_refl h
      | cons p rest =>
        obtain ⟨k, v⟩ := p
        have heq : allocFieldsH (fuel + 1) h ((k, v) :: rest) =
            match allocJValH fuel h v with
            | none => none
            | some (h1, v') =>
              match allocFieldsH fuel h1 rest with
              | none => none
              | some (h2, rest') => some (h2, (k, v') :: rest') := rfl
        rw [heq] at hc
        cases hcv : allocJValH fuel h v with
        | none => rw [hcv] at hc; exact Option.noConfusion hc
        | some pr =>
          obtain ⟨h1, v1⟩ := pr
          rw [hcv] at hc
          dsimp only at hc
          cases hcr : allocFieldsH fuel h1 rest with
          | none => rw [hcr] at hc; exact Option.noConfusion hc
          | some pr2 =>
            obtain ⟨h2, rest1⟩ := pr2
            rw [hcr] at hc
            dsimp only at hc
            obtain ⟨rfl, rfl⟩ := Prod.mk.inj (Option.some.inj hc)
            exact heapPres_trans (ihV h v h1 v1 hcv) (ihF h1 rest h2 rest1 hcr)
    · intro h xs h' xs' hc
      cases xs with
      | nil =>
        obtain ⟨rfl, rfl⟩ := Prod.mk.inj (Option.some.inj hc)
        exact heapPres_refl h
      | cons x rest =>
        have heq : allocItemsH (fuel + 1) h (x :: rest) =
            match allocJValH fuel h x with
            | none => none
            | some (h1, x') =>
              match allocItemsH fuel h1 rest with
              | none => none
              | some (h2, xs') => some (h2, x' :: xs') := rfl
        rw [heq] at hc
        cases hcv : allocJValH fuel h x with
        | none => rw [hcv] at hc; exact Option.noConfusion hc
        | some pr =>
          obtain ⟨h1, x1⟩ := pr
          rw [hcv] at hc
          dsimp only at hc
          cases hcr : allocItemsH fuel h1 rest with
          | none => rw [hcr] at hc; exact Option.noConfusion hc
          | some pr2 =>
            obtain ⟨h2, rest1⟩ := pr2
            rw [hcr] at hc
            dsimp only at hc
            obtain ⟨rfl, rfl⟩ := Prod.mk.inj (Option.some.inj hc)
            exact heapPres_trans (ihV h x h1 x1 hcv) (ihI h1 rest h2 rest1 hcr)

theorem mergeFieldsHPres (fuel : Nat) :
    ∀ (h : Heap) (id : String) (r : Nat) (ov : List (String × JVal)) (h' : Heap),
      mergeFieldsH fuel h id r ov = some h' → HeapPresExc r h h' := by
  induction fuel with
  | zero => intro h id r ov h' hc; exact Option.noConfusion hc
  | succ fuel ih =>
    intro h id r ov h' hc
    cases ov with
    | nil =>
      obtain rfl : h = h' := Option.some.inj hc
      exact heapPresExc_refl r h
    | cons p rest =>
      obtain ⟨k, v⟩ := p
      have heq : mergeFieldsH (fuel + 1) h id r ((k, v) :: rest) =
          match allocJValH fuel h v with
          | none => none
          | some (h1, hv) =>
            let (h2, hv') :=
              if k == "zones" && id == "dns.zone.manager" then
                mergeZonesH h1 (getFieldH h1 r "zones") hv
              else (h1, hv)
            mergeFieldsH fuel (setFieldH h2 r k hv') id r rest := rfl
      rw [heq] at hc
      cases ha : allocJValH fuel h v with
      | none => rw [ha] at hc; exact Option.noConfusion hc
      | some pr =>
        obtain ⟨h1, hv⟩ := pr
        rw [ha] at hc
        dsimp only at hc
        have hp1 : HeapPres h h1 := (allocPres fuel).1 h v h1 hv ha
        by_cases hz : (k == "zones" && id == "dns.zone.manager") = true
        · rw [if_pos hz] at hc
          cases hmz : mergeZonesH h1 (getFieldH h1 r "zones") hv with
          | mk h2 hv2 =>
            rw [hmz] at hc
            dsimp only at hc
            have hp2 : HeapPres h1 h2 := by
              have := mergeZonesH_pres h1 (getFieldH h1 r "zones") hv
              rw [hmz] at this
              exact this
            have hp3 : HeapPresExc r h2 (setFieldH h2 r k hv2) :=
              heapPresExc_setFieldH h2 r k hv2
            have hp4 : HeapPresExc r (setFieldH h2 r k hv2) h' := ih _ id r rest h' hc
            exact heapPresExc_trans
              (heapPresExc_trans
                (heapPres_toExc r (heapPres_trans hp1 hp2)) hp3) hp4
        · rw [if_neg hz] at hc
          dsimp only at hc
          have hp3 : HeapPresExc r h1 (setFieldH h1 r k hv) :=
            heapPresExc_setFieldH h1 r k hv
          have hp4 : HeapPresExc r (setFieldH h1 r k hv) h' := ih _ id r rest h' hc
          exact heapPresExc_trans
            (heapPresExc_trans (heapPres_toExc r hp1) hp3) hp4

theorem mergeIntoPres (fuel : Nat) (h : Heap) (O : Overrides) (r : Nat) (h' : Heap)
    (hc : mergeIntoH fuel h O r = some h') : HeapPresExc r h h' := by
  unfold mergeIntoH at hc
  cases hgf : getFieldH h r "handler" with
  | none =>
    rw [hgf] at hc
    obtain rfl : h = h' := Option.some.inj hc
    exact heapPresExc_refl r h
  | some hv =>
    rw [hgf] at hc
    cases hv with
    | ref a =>
      obtain rfl : h = h' := Option.some.inj hc
      exact heapPresExc_refl r h
    | prim p =>
      cases p with
      | hstr id =>
        dsimp only at hc
        cases ho : assocGet O id with
        | none =>
          rw [ho] at hc
          obtain rfl : h = h' := Option.some.inj hc
          exact heapPresExc_refl r h
        | some w =>
          rw [ho] at hc
          cases w with
          | jobj ov => exact mergeFieldsHPres fuel h id r ov h' hc
          | jnull =>
            obtain rfl : h = h' := Option.some.inj hc
            exact heapPresExc_refl r h
          | jbool b =>
            obtain rfl : h = h' := Option.some.inj hc
            exact heapPresExc_refl r h
          | jnum n =>
            obtain rfl : h = h' := Option.some.inj hc
            exact heapPresExc_refl r h
          | jstr s =>
            obtain rfl : h = h' := Option.some.inj hc
            exact heapPresExc_refl r h
          | jarr xs =>
            obtain rfl : h = h' := Option.some.inj hc
            exact heapPresExc_refl r h
      | hnum n =>
        obtain rfl : h = h' := Option.some.inj hc
        exact heapPresExc_refl r h
      | hbool b =>
        obtain rfl : h = h' := Option.some.inj hc
        exact heapPresExc_refl r h
      | hnull =>
        obtain rfl : h = h' := Option.some.inj hc
        exact heapPresExc_refl r h

theorem applyPres (fuel : Nat) :
    (∀ h O a h' r, applyCfgH fuel h O a = some (h', r) →
      HeapPres h h' ∧ h.next ≤ r ∧ r < h'.next) ∧
    (∀ h O r fs h', recurseFieldsH fuel h O r fs = some h' → HeapPresExc r h h') ∧
    (∀ h O xs h' xs', applySliceH fuel h O xs = some (h', xs') → HeapPres h h') := by
  induction fuel with
  | zero =>
    refine ⟨?_, ?_, ?_⟩ <;> (intro h O a h' r hc; exact Option.noConfusion hc)
  | succ fuel ih =>
    obtain ⟨ihC, ihR, ihS⟩ := ih
    refine ⟨?_, ?_, ?_⟩
    · intro h O a h' r hc
      have heq : applyCfgH (fuel + 1) h O a =
          match h.get a with
          | some (.hobj fs) =>
            match copyFieldsH fuel h fs with
            | none => none
            | some (h1, fs1) =>
              let (h2, r) := h1.alloc (.hobj fs1)
              match mergeIntoH fuel h2 O r with
              | none => none
              | some h3 =>
                match h3.get r with
                | some (.hobj fs2) =>
                  match recurseFieldsH fuel h3 O r fs2 with
                  | none => none
                  | some h4 => some (h4, r)
                | _ => none
          | _ => none := rfl
      rw [heq] at hc
      cases hg : h.get a with
      | none => rw [hg] at hc; exact Option.noConfusion hc
      | some node =>
        rw [hg] at hc
        cases node with
        | harr xs => exact Option.noConfusion hc
        | hobj fs =>
          dsimp only at hc
          cases hcf : copyFieldsH fuel h fs with
          | none => rw [hcf] at hc; exact Option.noConfusion hc
          | some pr =>
            obtain ⟨h1, fs1⟩ := pr
            rw [hcf] at hc
            dsimp only [Heap.alloc] at hc
            have hp1 : HeapPres h h1 := (copyPres fuel).2.1 h fs h1 fs1 hcf
            set h2 : Heap :=
              { mem := (h1.next, HNode.hobj fs1) :: h1.mem, next := h1.next + 1 }
              with hh2
            have hp2 : HeapPres h1 h2 := heapPres_alloc h1 (.hobj fs1)
            cases hmi : mergeIntoH fuel h2 O h1.next with
            | none => rw [hmi] at hc; exact Option.noConfusion hc
            | some h3 =>
              rw [hmi] at hc
              dsimp only at hc
              have hp3 : HeapPresExc h1.next h2 h3 :=
                mergeIntoPres fuel h2 O h1.next h3 hmi
              cases hg3 : h3.get h1.next with
              | none => rw [hg3] at hc; exact Option.noConfusion hc
              | some node3 =>
                rw [hg3] at hc
                cases node3 with
                | harr ys => exact Option.noConfusion hc
                | hobj fs2 =>
                  dsimp only at hc
                  cases hrf : recurseFieldsH fuel h3 O h1.next fs2 with
                  | none => rw [hrf] at hc; exact Option.noConfusion hc
                  | some h4 =>
                    rw [hrf] at hc
                    dsimp only at hc
                    obtain ⟨rfl, rfl⟩ := Prod.mk.inj (Option.some.inj hc)
                    have hp4 : HeapPresExc h1.next h3 h4 :=
                      ihR h3 O h1.next fs2 h4 hrf
                    have hnext2 : h2.next = h1.next + 1 := rfl
                    refine ⟨⟨?_, ?_⟩, ?_, ?_⟩
                    · calc h.next ≤ h1.next := hp1.1
                        _ ≤ h2.next := hp2.1
                        _ ≤ h3.next := hp3.1
                        _ ≤ h4.next := hp4.1
                    · intro b hb
                      have hb1 : b < h1.next := lt_of_lt_of_le hb hp1.1
                      have hbr : b ≠ h1.next := ne_of_lt hb1
                      have hb2 : b < h2.next := lt_of_lt_of_le hb1 hp2.1
                      have hb3 : b < h3.next := lt_of_lt_of_le hb2 hp3.1
                      calc h4.get b = h3.get b := hp4.2 b hbr hb3
                        _ = h2.get b := hp3.2 b hbr hb2
                        _ = h1.get b := hp2.2 b hb1
                        _ = h.get b := hp1.2 b hb
                    · exact hp1.1
                    · calc h1.next < h2.next := by rw [hnext2]; exact Nat.lt_succ_self _
                        _ ≤ h3.next := hp3.1
                        _ ≤ h4.next := hp4.1
    · intro h O r fs h' hc
      revert h hc
      induction fs with
      | nil =>
        intro h hc
        obtain rfl : h = h' := Option.some.inj hc
        exact heapPresExc_refl r h
      | cons p rest ihrest =>
        intro h hc
        obtain ⟨k, hv⟩ := p
        cases hv with
        | prim q =>
          have heq : recurseFieldsH (fuel + 1) h O r ((k, .prim q) :: rest) =
              recurseFieldsH fuel h O r rest := rfl
          rw [heq] at hc
          exact ihR h O r rest h' hc
        | ref a' =>
          have heq : recurseFieldsH (fuel + 1) h O r ((k, .ref a') :: rest) =
              match h.get a' with
              | some (.hobj fs0) =>
                match applyCfgH fuel h O a' with
                | none => none
                | some (h1, r') => recurseFieldsH fuel (setFieldH h1 r k (.ref r')) O r rest
              | some (.harr xs) =>
                match applySliceH fuel h O xs with
                | none => none
                | some (h1, xs') =>
                  let (h2, ra) := h1.alloc (.harr xs')
                  recurseFieldsH fuel (setFieldH h2 r k (.ref ra)) O r rest
              | none => none := by
            rfl
          rw [heq] at hc
          cases hg : h.get a' with
          | none => rw [hg] at hc; exact Option.noConfusion hc
          | some node =>
            rw [hg] at hc
            cases node with
            | hobj fs0 =>
              dsimp only at hc
              cases hac : applyCfgH fuel h O a' with
              | none => rw [hac] at hc; exact Option.noConfusion hc
              | some pr =>
                obtain ⟨h1, r'⟩ := pr
                rw [hac] at hc
                dsimp only at hc
                have hp1 : HeapPres h h1 := ((ihC h O a' h1 r' hac)).1
                have hp2 : HeapPresExc r h1 (setFieldH h1 r k (.ref r')) :=
                  heapPresExc_setFieldH h1 r k (.ref r')
                have hp3 : HeapPresExc r (setFieldH h1 r k (.ref r')) h' :=
                  ihR _ O r rest h' hc
                exact heapPresExc_trans
                  (heapPresExc_trans (heapPres_toExc r hp1) hp2) hp3
            | harr xs =>
              dsimp only at hc
              cases has : applySliceH fuel h O xs with
              | none => rw [has] at hc; exact Option.noConfusion hc
              | some pr =>
                obtain ⟨h1, xs1⟩ := pr
                rw [has] at hc
                dsimp only [Heap.alloc] at hc
                have hp1 : HeapPres h h1 := ihS h O xs h1 xs1 has
                set h2 : Heap :=
                  { mem := (h1.next, HNode.harr xs1) :: h1.mem, next := h1.next + 1 }
                  with hh2
                have hp2 : HeapPres h1 h2 := heapPres_alloc h1 (.harr xs1)
                have hp3 : HeapPresExc r h2 (setFieldH h2 r k (.ref h1.next)) :=
                  heapPresExc_setFieldH h2 r k (.ref h1.next)
                have hp4 : HeapPresExc r (setFieldH h2 r k (.ref h1.next)) h' :=
                  ihR _ O r rest h' hc
                exact heapPresExc_trans
                  (heapPresExc_trans
                    (heapPres_toExc r (heapPres_trans hp1 hp2)) hp3) hp4
    · intro h O xs h' xs' hc
      revert h xs' hc
      induction xs with
      | nil =>
        intro h xs' hc
        obtain ⟨rfl, rfl⟩ := Prod.mk.inj (Option.some.inj hc)
        exact heapPres_refl h
      | cons x rest ihrest =>
        intro h xs' hc
        cases x with
        | prim q =>
          have heq : applySliceH (fuel + 1) h O (.prim q :: rest) =
              match applySliceH fuel h O rest with
              | none => none
              | some (h1, xs1) => some (h1, .prim q :: xs1) := rfl
          rw [heq] at hc
          cases har : applySliceH fuel h O rest with
          | none => rw [har] at hc; exact Option.noConfusion hc
          | some pr =>
            obtain ⟨h1, xs1⟩ := pr
            rw [har] at hc
            dsimp only at hc
            obtain ⟨rfl, rfl⟩ := Prod.mk.inj (Option.some.inj hc)
            exact ihS h O rest h1 xs1 har
        | ref a' =>
          have heq : applySliceH (fuel + 1) h O (.ref a' :: rest) =
              match h.get a' with
              | some (.hobj fs0) =>
                match applyCfgH fuel h O a' with
                | none => none
                | some (h1, r') =>
                  match applySliceH fuel h1 O rest with
                  | none => none
                  | some (h2, xs1) => some (h2, .ref r' :: xs1)
              | _ =>
                match applySliceH fuel h O rest with
                | none => none
                | some (h1, xs1) => some (h1, .ref a' :: xs1) := rfl
          rw [heq] at hc
          cases hg : h.get a' with
          | none =>
            rw [hg] at hc
            dsimp only at hc
            cases har : applySliceH fuel h O rest with
            | none => rw [har] at hc; exact Option.noConfusion hc
            | some pr =>
              obtain ⟨h1, xs1⟩ := pr
              rw [har] at hc
              dsimp only at hc
              obtain ⟨rfl, rfl⟩ := Prod.mk.inj (Option.some.inj hc)
              exact ihS h O rest h1 xs1 har
          | some node =>
            rw [hg] at hc
            cases node with
            | hobj fs0 =>
              dsimp only at hc
              cases hac : applyCfgH fuel h O a' with
              | none => rw [hac] at hc; exact Option.noConfusion hc
              | some pr =>
                obtain ⟨h1, r'⟩ := pr
                rw [hac] at hc
                dsimp only at hc
                cases har : applySliceH fuel h1 O rest with
                | none => rw [har] at hc; exact Option.noConfusion hc
                | some pr2 =>
                  obtain ⟨h2, xs1⟩ := pr2
                  rw [har] at hc
                  dsimp only at hc
                  obtain ⟨rfl, rfl⟩ := Prod.mk.inj (Option.some.inj hc)
                  exact heapPres_trans ((ihC h O a' h1 r' hac)).1
                    (ihS h1 O rest h2 xs1 har)
            | harr ys =>
              dsimp only at hc
              cases har : applySliceH fuel h O rest with
              | none => rw [har] at hc; exact Option.noConfusion hc
              | some pr =>
                obtain ⟨h1, xs1⟩ := pr
                rw [har] at hc
                dsimp only at hc
                obtain ⟨rfl, rfl⟩ := Prod.mk.inj (Option.some.inj hc)
                exact ihS h O rest h1 xs1 har

/-- C9: the override walker leaves the decoded base document unchanged.
For every heap `h` (in particular one holding the decoded base document),
every address allocated before the call to `applyOverridesToConfig` maps
to exactly the same node afterwards: the walker reads the base, operates
on its deep copy, and stores only to addresses it allocated itself, so no
node of the decoded base document is mutated in place. -/
theorem applyOverridesH_preserves_base (fuel : Nat) (h : Heap) (O : Overrides)
    (a : Nat) (h' : Heap) (r : Nat)
    (hc : applyCfgH fuel h O a = some (h', r)) :
    ∀ b, b < h.next → h'.get b = h.get b :=
  fun b hb => ((applyPres fuel).1 h O a h' r hc).1.2 b hb

/-- Witness for C9: a one-node base document at address 0 with an
override of its handler; after the walk (which builds the merged copy at
address 1) address 0 still holds the original node. -/
theorem applyOverridesH_preserves_base_witness :
    (applyCfgH 10
        ⟨[(0, .hobj [("handler", .prim (.hstr "a")), ("x", .prim (.hnum 3))])], 1⟩
        [("a", .jobj [("x", .jnum 2)])] 0 =
      some (⟨[(1, .hobj [("handler", .prim (.hstr "a")), ("x", .prim (.hnum 2))]),
              (0, .hobj [("handler", .prim (.hstr "a")), ("x", .prim (.hnum 3))])],
             2⟩, 1)) ∧
    Heap.get
        ⟨[(1, .hobj [("handler", .prim (.hstr "a")), ("x", .prim (.hnum 2))]),
          (0, .hobj [("handler", .prim (.hstr "a")), ("x", .prim (.hnum 3))])], 2⟩ 0 =
      Heap.get
        ⟨[(0, .hobj [("handler", .prim (.hstr "a")), ("x", .prim (.hnum 3))])], 1⟩ 0 :=
  ⟨rfl,
   applyOverridesH_preserves_base 10
     ⟨[(0, .hobj [("handler", .prim (.hstr "a")), ("x", .prim (.hnum 3))])], 1⟩
     [("a", .jobj [("x", .jnum 2)])] 0
     ⟨[(1, .hobj [("handler", .prim (.hstr "a")), ("x", .prim (.hnum 2))]),
       (0, .hobj [("handler", .prim (.hstr "a")), ("x", .prim (.hnum 3))])], 2⟩ 1
     rfl 0 (by decide)⟩
